import Mathlib

/-!
# Verification of the slack-coder core engines

A shallow embedding, in Lean 4, of the core subsystems of the `slack-coder`
repository, together with theorems checking the natural-language
specification against the code:

* the Python string primitives the controller relies on (UTF-8 byte
  length, byte-level truncation with lenient decoding, `strip`/`rstrip`) —
  modelled at the byte level, since `Controller._truncate_consolidated`
  slices the UTF-8 encoding of the text;
* `Controller.emit_agent_message` (src/core/controller.py), the
  consolidated buffer manager: per-key buffer and remote-message-id
  dictionaries, the proactive split (Case 1), the oversized-buffer split
  loop (Case 2), and the final edit-or-send step.  Platform calls are
  modelled by an oracle that decides, per call, whether the call raises
  and what it returns;
* `parse_unified_diff` (src/core/diff_parser.py);
* `get_incremental_diff`, `_parse_diff_to_files`, `_parse_file_diff_info`
  and `create_diff_gist` (src/core/gist_service.py), the latter with an
  explicit file-system state so that temp-file cleanup can be stated.

Python `str` is modelled as `List Char` where byte-level behaviour
matters (the controller) and as Lean `String` where only line/character
structure matters (the diff parser and gist service).
-/

namespace SlackCoder

/-! ## Python string primitives (byte-level model)

`PyStr` models a Python `str` as its sequence of code points.  The
whitespace set below covers the characters Python's `str.strip` removes
(ASCII whitespace, the information separators, NEL, NBSP and the Unicode
space/separator code points). -/

abbrev PyStr := List Char

def isPySpace (c : Char) : Bool :=
  c = ' ' || c = '\t' || c = '\n' || c = '\r' ||
  c.toNat = 0x0b || c.toNat = 0x0c ||
  (0x1c ≤ c.toNat && c.toNat ≤ 0x1f) ||
  c.toNat = 0x85 || c.toNat = 0xa0 ||
  (0x2000 ≤ c.toNat && c.toNat ≤ 0x200a) ||
  c.toNat = 0x2028 || c.toNat = 0x2029 || c.toNat = 0x202f ||
  c.toNat = 0x205f || c.toNat = 0x3000

/-- Python `str.strip()`. -/
def pyStrip (s : PyStr) : PyStr :=
  ((s.dropWhile isPySpace).reverse.dropWhile isPySpace).reverse

/-- Python `str.rstrip()`. -/
def pyRstrip (s : PyStr) : PyStr :=
  (s.reverse.dropWhile isPySpace).reverse

/-- Python `str.rstrip(chars)` for a single character argument. -/
def pyRstripChar (ch : Char) (s : PyStr) : PyStr :=
  (s.reverse.dropWhile (· = ch)).reverse

/-- UTF-8 encoding of one code point (Python `str.encode("utf-8")`,
per character). -/
def utf8B (c : Char) : List Nat :=
  if c.toNat < 0x80 then [c.toNat]
  else if c.toNat < 0x800 then [0xC0 + c.toNat / 64, 0x80 + c.toNat % 64]
  else if c.toNat < 0x10000 then
    [0xE0 + c.toNat / 4096, 0x80 + (c.toNat / 64) % 64, 0x80 + c.toNat % 64]
  else
    [0xF0 + c.toNat / 262144, 0x80 + (c.toNat / 4096) % 64,
     0x80 + (c.toNat / 64) % 64, 0x80 + c.toNat % 64]

/-- `text.encode("utf-8")` as a byte list. -/
def utf8Encode (s : PyStr) : List Nat := s.flatMap utf8B

/-- `len(text.encode("utf-8"))`, the quantity
`Controller._get_text_byte_length` computes. -/
def byteLen (s : PyStr) : Nat := (utf8Encode s).length

/-- State of an in-progress multi-byte UTF-8 sequence: how many
continuation bytes are still expected, the value accumulated so far,
and the smallest code point the finished sequence may legally denote
(the overlong-encoding check). -/
structure Utf8Pend where
  need : Nat
  val : Nat
  low : Nat
deriving DecidableEq

/-- Decoder state: characters decoded so far (in reverse order) plus an
optional pending multi-byte sequence. -/
structure DecSt where
  acc : List Char
  pend : Option Utf8Pend
deriving DecidableEq

/-- Handle byte `b` when no multi-byte sequence is pending. -/
def decStart (a : List Char) (b : Nat) : DecSt :=
  if b < 0x80 then ⟨Char.ofNat b :: a, none⟩
  else if b < 0xC0 then ⟨a, none⟩
  else if b < 0xE0 then ⟨a, some ⟨1, b - 0xC0, 0x80⟩⟩
  else if b < 0xF0 then ⟨a, some ⟨2, b - 0xE0, 0x800⟩⟩
  else if b < 0xF5 then ⟨a, some ⟨3, b - 0xF0, 0x10000⟩⟩
  else ⟨a, none⟩

/-- One step of the lenient UTF-8 decoder. -/
def decStepF (st : DecSt) (b : Nat) : DecSt :=
  match st.pend with
  | none => decStart st.acc b
  | some p =>
    if 0x80 ≤ b ∧ b < 0xC0 then
      if p.need = 1 then
        if p.low ≤ p.val * 64 + (b - 0x80) ∧
            ¬(0xD800 ≤ p.val * 64 + (b - 0x80) ∧
              p.val * 64 + (b - 0x80) < 0xE000) ∧
            p.val * 64 + (b - 0x80) < 0x110000 then
          ⟨Char.ofNat (p.val * 64 + (b - 0x80)) :: st.acc, none⟩
        else ⟨st.acc, none⟩
      else ⟨st.acc, some ⟨p.need - 1, p.val * 64 + (b - 0x80), p.low⟩⟩
    else decStart st.acc b

/-- Lenient UTF-8 decoding, `bytes.decode("utf-8", errors="ignore")`:
well-formed sequences decode to their code point, malformed or
incomplete sequences are dropped.  In particular an incomplete sequence
at the end of the input (the case produced by slicing a valid encoding)
is dropped entirely. -/
def decodeIgnore (l : List Nat) : List Char :=
  ((l.foldl decStepF ⟨[], none⟩).acc).reverse

/-- Python slicing `l[:k]` where `k` may be negative
(`encoded[:max_bytes - 3]` in `_truncate_consolidated`). -/
def pySliceTo (l : List Nat) (k : Int) : List Nat :=
  if 0 ≤ k then l.take k.toNat else l.take (l.length - k.natAbs)

/-- `Controller._truncate_consolidated` (src/core/controller.py:375-386):
truncate `text` to fit within `maxBytes` UTF-8 bytes, reserving three
bytes for a trailing ellipsis and decoding the byte prefix leniently. -/
def truncateConsolidated (text : PyStr) (maxBytes : Nat) : PyStr :=
  if byteLen text ≤ maxBytes then text
  else
    let ellipsisBytes : Nat := byteLen ['…']
    let targetBytes : Int := (maxBytes : Int) - (ellipsisBytes : Int)
    let encoded := utf8Encode text
    let truncated := decodeIgnore (pySliceTo encoded targetBytes)
    pyRstrip truncated ++ ['…']

/-- The maximal prefix of `s` whose UTF-8 encoding fits in `n` bytes:
the specification of what truncate-then-decode-leniently produces. -/
def utf8TakeBytes (n : Nat) : PyStr → PyStr
  | [] => []
  | c :: s =>
    if (utf8B c).length ≤ n then c :: utf8TakeBytes (n - (utf8B c).length) s
    else []

/-! ### Byte-length lemmas -/

theorem byteLen_nil : byteLen [] = 0 := rfl

theorem byteLen_cons (c : Char) (s : PyStr) :
    byteLen (c :: s) = (utf8B c).length + byteLen s := by
  simp [byteLen, utf8Encode]

theorem byteLen_append (s t : PyStr) :
    byteLen (s ++ t) = byteLen s + byteLen t := by
  simp [byteLen, utf8Encode]

theorem byteLen_eq_sum (s : PyStr) :
    byteLen s = (s.map (fun c => (utf8B c).length)).sum := by
  induction s with
  | nil => rfl
  | cons c s ih => simp [byteLen_cons, ih]

theorem byteLen_reverse (s : PyStr) : byteLen s.reverse = byteLen s := by
  rw [byteLen_eq_sum, byteLen_eq_sum,
    List.map_reverse, List.sum_reverse]

theorem byteLen_dropWhile_le (p : Char → Bool) (s : PyStr) :
    byteLen (s.dropWhile p) ≤ byteLen s := by
  induction s with
  | nil => simp
  | cons c s ih =>
    by_cases h : p c
    · simpa [List.dropWhile_cons, h, byteLen_cons] using ih.trans (by omega)
    · simp [List.dropWhile_cons, h]

theorem byteLen_pyRstrip_le (s : PyStr) : byteLen (pyRstrip s) ≤ byteLen s := by
  unfold pyRstrip
  calc byteLen (s.reverse.dropWhile isPySpace).reverse
      = byteLen (s.reverse.dropWhile isPySpace) := byteLen_reverse _
    _ ≤ byteLen s.reverse := byteLen_dropWhile_le _ _
    _ = byteLen s := byteLen_reverse s

theorem byteLen_pyRstripChar_le (ch : Char) (s : PyStr) :
    byteLen (pyRstripChar ch s) ≤ byteLen s := by
  unfold pyRstripChar
  calc byteLen (s.reverse.dropWhile (· = ch)).reverse
      = byteLen (s.reverse.dropWhile (· = ch)) := byteLen_reverse _
    _ ≤ byteLen s.reverse := byteLen_dropWhile_le _ _
    _ = byteLen s := byteLen_reverse s

theorem utf8B_length_pos (c : Char) : 0 < (utf8B c).length := by
  unfold utf8B
  repeat' split
  all_goals simp

/-! ### Decoding lemmas: decoding a valid encoding, and decoding a
truncated one -/

theorem char_valid_range (c : Char) :
    c.toNat < 0xD800 ∨ (0xE000 ≤ c.toNat ∧ c.toNat < 0x110000) := by
  have h := c.valid
  rcases h with h | ⟨h1, h2⟩
  · left; exact h
  · right; exact ⟨h1, h2⟩

theorem decStepF_none (a : List Char) (b : Nat) :
    decStepF ⟨a, none⟩ b = decStart a b := rfl

theorem decStart_ascii (a : List Char) (b : Nat) (h : b < 0x80) :
    decStart a b = ⟨Char.ofNat b :: a, none⟩ := by
  unfold decStart; rw [if_pos h]

theorem decStart_lead2 (a : List Char) (b : Nat) (h1 : 0xC0 ≤ b)
    (h2 : b < 0xE0) : decStart a b = ⟨a, some ⟨1, b - 0xC0, 0x80⟩⟩ := by
  unfold decStart
  rw [if_neg (by omega), if_neg (by omega), if_pos h2]

theorem decStart_lead3 (a : List Char) (b : Nat) (h1 : 0xE0 ≤ b)
    (h2 : b < 0xF0) : decStart a b = ⟨a, some ⟨2, b - 0xE0, 0x800⟩⟩ := by
  unfold decStart
  rw [if_neg (by omega), if_neg (by omega), if_neg (by omega), if_pos h2]

theorem decStart_lead4 (a : List Char) (b : Nat) (h1 : 0xF0 ≤ b)
    (h2 : b < 0xF5) : decStart a b = ⟨a, some ⟨3, b - 0xF0, 0x10000⟩⟩ := by
  unfold decStart
  rw [if_neg (by omega), if_neg (by omega), if_neg (by omega),
    if_neg (by omega), if_pos h2]

theorem decStepF_complete (a : List Char) (v low b : Nat)
    (hb1 : 0x80 ≤ b) (hb2 : b < 0xC0)
    (h : low ≤ v * 64 + (b - 0x80) ∧
      ¬(0xD800 ≤ v * 64 + (b - 0x80) ∧ v * 64 + (b - 0x80) < 0xE000) ∧
      v * 64 + (b - 0x80) < 0x110000) :
    decStepF ⟨a, some ⟨1, v, low⟩⟩ b =
      ⟨Char.ofNat (v * 64 + (b - 0x80)) :: a, none⟩ := by
  unfold decStepF
  simp only
  rw [if_pos ⟨hb1, hb2⟩, if_pos trivial, if_pos h]

theorem decStepF_cont (a : List Char) (k v low b : Nat) (hk : k ≠ 1)
    (hb1 : 0x80 ≤ b) (hb2 : b < 0xC0) :
    decStepF ⟨a, some ⟨k, v, low⟩⟩ b =
      ⟨a, some ⟨k - 1, v * 64 + (b - 0x80), low⟩⟩ := by
  unfold decStepF
  simp only
  rw [if_pos ⟨hb1, hb2⟩, if_neg hk]

/-- Feeding the decoder the valid encoding of one character, starting
from an idle state, decodes exactly that character. -/
theorem foldl_decStepF_utf8B (c : Char) (a : List Char) :
    List.foldl decStepF ⟨a, none⟩ (utf8B c) = ⟨c :: a, none⟩ := by
  have hv := char_valid_range c
  by_cases h1 : c.toNat < 0x80
  · simp only [utf8B, if_pos h1, List.foldl, decStepF_none]
    rw [decStart_ascii _ _ h1, Char.ofNat_toNat]
  · by_cases h2 : c.toNat < 0x800
    · simp only [utf8B, if_neg h1, if_pos h2, List.foldl, decStepF_none]
      rw [decStart_lead2 _ _ (by omega) (by omega)]
      rw [decStepF_complete _ _ _ _ (by omega) (by omega)
        (by constructor; · omega
            constructor; · omega
            · omega)]
      have he : (0xC0 + c.toNat / 64 - 0xC0) * 64 +
          (0x80 + c.toNat % 64 - 0x80) = c.toNat := by omega
      rw [he, Char.ofNat_toNat]
    · by_cases h3 : c.toNat < 0x10000
      · simp only [utf8B, if_neg h1, if_neg h2, if_pos h3, List.foldl,
          decStepF_none]
        rw [decStart_lead3 _ _ (by omega) (by omega)]
        rw [decStepF_cont _ _ _ _ _ (by omega) (by omega) (by omega)]
        rw [decStepF_complete _ _ _ _ (by omega) (by omega)
          (by constructor
              · omega
              constructor
              · omega
              · omega)]
        have he : ((0xE0 + c.toNat / 4096 - 0xE0) * 64 +
            (0x80 + c.toNat / 64 % 64 - 0x80)) * 64 +
            (0x80 + c.toNat % 64 - 0x80) = c.toNat := by omega
        rw [he, Char.ofNat_toNat]
      · simp only [utf8B, if_neg h1, if_neg h2, if_neg h3, List.foldl,
          decStepF_none]
        rw [decStart_lead4 _ _ (by omega) (by omega)]
        rw [decStepF_cont _ _ _ _ _ (by omega) (by omega) (by omega)]
        rw [decStepF_cont _ _ _ _ _ (by omega) (by omega) (by omega)]
        rw [decStepF_complete _ _ _ _ (by omega) (by omega)
          (by constructor
              · omega
              constructor
              · omega
              · omega)]
        have he : (((0xF0 + c.toNat / 262144 - 0xF0) * 64 +
            (0x80 + c.toNat / 4096 % 64 - 0x80)) * 64 +
            (0x80 + c.toNat / 64 % 64 - 0x80)) * 64 +
            (0x80 + c.toNat % 64 - 0x80) = c.toNat := by omega
        rw [he, Char.ofNat_toNat]

/-- Feeding the decoder a strictly partial one-character encoding
leaves the accumulator unchanged: the incomplete bytes produce no
output. -/
theorem foldl_decStepF_utf8B_partial (c : Char) (a : List Char) (n : Nat)
    (h : n < (utf8B c).length) :
    (List.foldl decStepF ⟨a, none⟩ ((utf8B c).take n)).acc = a := by
  have hv := char_valid_range c
  by_cases h1 : c.toNat < 0x80
  · simp only [utf8B, if_pos h1] at h ⊢
    simp only [List.length_cons, List.length_nil] at h
    interval_cases n
    simp
  · by_cases h2 : c.toNat < 0x800
    · simp only [utf8B, if_neg h1, if_pos h2] at h ⊢
      simp only [List.length_cons, List.length_nil] at h
      interval_cases n
      · simp
      · simp only [List.take_succ_cons, List.take_zero, List.foldl,
          decStepF_none]
        rw [decStart_lead2 _ _ (by omega) (by omega)]
    · by_cases h3 : c.toNat < 0x10000
      · simp only [utf8B, if_neg h1, if_neg h2, if_pos h3] at h ⊢
        simp only [List.length_cons, List.length_nil] at h
        interval_cases n
        · simp
        · simp only [List.take_succ_cons, List.take_zero, List.foldl,
            decStepF_none]
          rw [decStart_lead3 _ _ (by omega) (by omega)]
        · simp only [List.take_succ_cons, List.take_zero, List.foldl,
            decStepF_none]
          rw [decStart_lead3 _ _ (by omega) (by omega)]
          rw [decStepF_cont _ _ _ _ _ (by omega) (by omega) (by omega)]
      · simp only [utf8B, if_neg h1, if_neg h2, if_neg h3] at h ⊢
        simp only [List.length_cons, List.length_nil] at h
        interval_cases n
        · simp
        · simp only [List.take_succ_cons, List.take_zero, List.foldl,
            decStepF_none]
          rw [decStart_lead4 _ _ (by omega) (by omega)]
        · simp only [List.take_succ_cons, List.take_zero, List.foldl,
            decStepF_none]
          rw [decStart_lead4 _ _ (by omega) (by omega)]
          rw [decStepF_cont _ _ _ _ _ (by omega) (by omega) (by omega)]
        · simp only [List.take_succ_cons, List.take_zero, List.foldl,
            decStepF_none]
          rw [decStart_lead4 _ _ (by omega) (by omega)]
          rw [decStepF_cont _ _ _ _ _ (by omega) (by omega) (by omega)]
          rw [decStepF_cont _ _ _ _ _ (by omega) (by omega) (by omega)]

theorem foldl_decStepF_take_encode (s : PyStr) :
    ∀ (n : Nat) (a : List Char),
      (List.foldl decStepF ⟨a, none⟩ ((utf8Encode s).take n)).acc =
        (utf8TakeBytes n s).reverse ++ a := by
  induction s with
  | nil => intro n a; simp [utf8Encode, utf8TakeBytes]
  | cons c s ih =>
    intro n a
    have henc : utf8Encode (c :: s) = utf8B c ++ utf8Encode s := by
      simp [utf8Encode]
    rw [henc, List.take_append_eq_append_take]
    by_cases h : (utf8B c).length ≤ n
    · rw [List.take_of_length_le h, List.foldl_append,
        foldl_decStepF_utf8B, ih (n - (utf8B c).length) (c :: a)]
      rw [utf8TakeBytes, if_pos h]
      simp
    · have h0 : n - (utf8B c).length = 0 := by omega
      rw [h0, List.take_zero, List.append_nil,
        foldl_decStepF_utf8B_partial c a n (by omega)]
      rw [utf8TakeBytes, if_neg h]
      simp

/-- Lenient decoding of any byte-length prefix of a valid encoding
produces exactly the maximal character prefix that fits: the byte
boundary never splits a character. -/
theorem decode_take_encode (s : PyStr) (n : Nat) :
    decodeIgnore ((utf8Encode s).take n) = utf8TakeBytes n s := by
  unfold decodeIgnore
  rw [foldl_decStepF_take_encode s n []]
  simp

theorem utf8TakeBytes_of_le (s : PyStr) (n : Nat) (h : byteLen s ≤ n) :
    utf8TakeBytes n s = s := by
  induction s generalizing n with
  | nil => simp [utf8TakeBytes]
  | cons c s ih =>
    rw [byteLen_cons] at h
    rw [utf8TakeBytes, if_pos (by omega), ih (n - (utf8B c).length) (by omega)]

/-- Decoding a full valid encoding is the identity (round trip). -/
theorem decode_encode (s : PyStr) : decodeIgnore (utf8Encode s) = s := by
  have h := decode_take_encode s (utf8Encode s).length
  rwa [List.take_of_length_le (le_refl _),
    utf8TakeBytes_of_le s (utf8Encode s).length (le_refl _)] at h

theorem utf8TakeBytes_isPrefix (n : Nat) (s : PyStr) :
    utf8TakeBytes n s <+: s := by
  induction s generalizing n with
  | nil => simp [utf8TakeBytes]
  | cons c s ih =>
    rw [utf8TakeBytes]
    split
    · exact List.cons_prefix_cons.mpr ⟨rfl, ih _⟩
    · exact List.nil_prefix

theorem utf8TakeBytes_byteLen_le (n : Nat) (s : PyStr) :
    byteLen (utf8TakeBytes n s) ≤ n := by
  induction s generalizing n with
  | nil => simp [utf8TakeBytes, byteLen_nil]
  | cons c s ih =>
    rw [utf8TakeBytes]
    split
    · rw [byteLen_cons]
      have := ih (n - (utf8B c).length)
      omega
    · simp [byteLen_nil]

theorem utf8TakeBytes_eq_take (n : Nat) (s : PyStr) :
    ∃ k, utf8TakeBytes n s = s.take k := by
  have h := utf8TakeBytes_isPrefix n s
  exact ⟨(utf8TakeBytes n s).length, List.prefix_iff_eq_take.mp h⟩

/-! ### Truncation lemmas -/

theorem byteLen_ellipsis : byteLen ['…'] = 3 := by decide

theorem pySliceTo_eq_take (l : List Nat) (k : Int) :
    ∃ m, pySliceTo l k = l.take m := by
  unfold pySliceTo
  split
  · exact ⟨k.toNat, rfl⟩
  · exact ⟨l.length - k.natAbs, rfl⟩

/-- Shape of `_truncate_consolidated` in the truncating branch with a
budget of at least the three ellipsis bytes. -/
theorem truncateConsolidated_of_gt (text : PyStr) (maxBytes : Nat)
    (h : maxBytes < byteLen text) (h3 : 3 ≤ maxBytes) :
    truncateConsolidated text maxBytes =
      pyRstrip (utf8TakeBytes (maxBytes - 3) text) ++ ['…'] := by
  unfold truncateConsolidated
  rw [if_neg (by omega)]
  simp only [byteLen_ellipsis]
  have hk : (0 : Int) ≤ (maxBytes : Int) - (3 : Nat) := by omega
  unfold pySliceTo
  rw [if_pos hk]
  have hm : ((maxBytes : Int) - ((3 : Nat) : Int)).toNat = maxBytes - 3 := by
    omega
  rw [hm, decode_take_encode]

/-- The output of `_truncate_consolidated` fits in the byte budget
whenever the budget covers at least the ellipsis. -/
theorem truncateConsolidated_byteLen_le (text : PyStr) (maxBytes : Nat)
    (h3 : 3 ≤ maxBytes) :
    byteLen (truncateConsolidated text maxBytes) ≤ maxBytes := by
  by_cases h : byteLen text ≤ maxBytes
  · rw [truncateConsolidated, if_pos h]
    exact h
  · rw [truncateConsolidated_of_gt text maxBytes (by omega) h3]
    rw [byteLen_append, byteLen_ellipsis]
    have h1 := byteLen_pyRstrip_le (utf8TakeBytes (maxBytes - 3) text)
    have h2 := utf8TakeBytes_byteLen_le (maxBytes - 3) text
    omega

/-- When the input already fits, `_truncate_consolidated` is the
identity. -/
theorem truncateConsolidated_of_le (text : PyStr) (maxBytes : Nat)
    (h : byteLen text ≤ maxBytes) :
    truncateConsolidated text maxBytes = text := by
  rw [truncateConsolidated, if_pos h]

/-- C3: For every input string and every byte budget, the truncation
step (`_truncate_consolidated`) never splits inside a multi-byte UTF-8
sequence.  Lenient decoding of any byte-length prefix of the encoding
yields exactly the maximal whole-character prefix that fits (incomplete
trailing bytes are dropped), so the truncated output is always a valid
character sequence: it is built from whole characters of the input and
encodes/decodes without error — even when the byte boundary falls
mid-character. -/
theorem claim_C3_truncation_multibyte_safety :
    ∀ (s : PyStr) (n maxBytes : Nat),
      decodeIgnore ((utf8Encode s).take n) = utf8TakeBytes n s ∧
      utf8TakeBytes n s <+: s ∧
      byteLen (utf8TakeBytes n s) ≤ n ∧
      decodeIgnore (utf8Encode (truncateConsolidated s maxBytes)) =
        truncateConsolidated s maxBytes ∧
      (truncateConsolidated s maxBytes = s ∨
        ∃ k, truncateConsolidated s maxBytes = pyRstrip (s.take k) ++ ['…']) := by
  intro s n maxBytes
  refine ⟨decode_take_encode s n, utf8TakeBytes_isPrefix n s,
    utf8TakeBytes_byteLen_le n s, decode_encode _, ?_⟩
  by_cases h : byteLen s ≤ maxBytes
  · left
    exact truncateConsolidated_of_le _ _ h
  · right
    unfold truncateConsolidated
    rw [if_neg h]
    dsimp only
    obtain ⟨m, hm⟩ := pySliceTo_eq_take (utf8Encode s)
      ((maxBytes : Int) - (byteLen ['…'] : Int))
    rw [hm, decode_take_encode]
    obtain ⟨k, hk⟩ := utf8TakeBytes_eq_take m s
    exact ⟨k, by rw [hk]⟩

/-! ## Line splitting

Python `str.split("\n")` (used by `parse_unified_diff` and
`_parse_diff_to_files`): split on every newline, keeping empty
pieces. -/

def splitNL : PyStr → List PyStr
  | [] => [[]]
  | c :: t =>
    if c = '\n' then [] :: splitNL t
    else
      match splitNL t with
      | h :: rest => (c :: h) :: rest
      | [] => [[c]]

theorem splitNL_ne_nil (l : PyStr) : splitNL l ≠ [] := by
  cases l with
  | nil => simp [splitNL]
  | cons c t =>
    rw [splitNL]
    split
    · simp
    · split <;> simp

/-- Every character of every piece of `splitNL l` is a character of
`l`. -/
theorem splitNL_mem_subset (l : PyStr) :
    ∀ piece ∈ splitNL l, ∀ c ∈ piece, c ∈ l := by
  induction l with
  | nil =>
    intro piece hp c hc
    simp [splitNL] at hp
    subst hp
    simp at hc
  | cons a t ih =>
    intro piece hp c hc
    rw [splitNL] at hp
    by_cases ha : a = '\n'
    · rw [if_pos ha] at hp
      rcases List.mem_cons.mp hp with h | h
      · subst h; simp at hc
      · exact List.mem_cons_of_mem a (ih piece h c hc)
    · rw [if_neg ha] at hp
      rcases he : splitNL t with _ | ⟨h0, rest⟩
      · exact absurd he (splitNL_ne_nil t)
      · rw [he] at hp
        rcases List.mem_cons.mp hp with h | h
        · subst h
          rcases List.mem_cons.mp hc with h | h
          · exact h ▸ List.mem_cons_self a t
          · exact List.mem_cons_of_mem a
              (ih h0 (he ▸ List.mem_cons_self h0 rest) c h)
        · exact List.mem_cons_of_mem a
            (ih piece (he ▸ List.mem_cons_of_mem h0 h) c hc)

theorem pyStrip_eq_nil_iff (l : PyStr) :
    pyStrip l = [] ↔ ∀ c ∈ l, isPySpace c := by
  unfold pyStrip
  rw [List.reverse_eq_nil_iff, List.dropWhile_eq_nil_iff]
  constructor
  · intro h c hc
    by_cases hd : c ∈ l.dropWhile isPySpace
    · exact h c (by simpa using hd)
    · have := List.takeWhile_append_dropWhile (p := isPySpace) (l := l)
      have hmem : c ∈ l.takeWhile isPySpace ++ l.dropWhile isPySpace := by
        rw [this]; exact hc
      rcases List.mem_append.mp hmem with h' | h'
      · exact List.mem_takeWhile_imp h'
      · exact absurd h' hd
  · intro h c hc
    exact h c ((List.dropWhile_sublist (l := l) (p := isPySpace)).subset
      (by simpa using hc))

/-! ## Unified diff parser (src/core/diff_parser.py)

`DiffHunk`, `FileDiff` and `parse_unified_diff`, embedded over
`PyStr`. -/

structure DiffHunk where
  old_start : Nat
  old_count : Nat
  new_start : Nat
  new_count : Nat
  changes : List (Char × PyStr)
deriving DecidableEq

structure FileDiff where
  old_path : PyStr
  new_path : PyStr
  hunks : List DiffHunk
  is_new_file : Bool
  is_deleted_file : Bool
  is_binary : Bool
deriving DecidableEq

/-- Split at the LAST occurrence of `sep` (the greedy first group of
the regex `diff --git a/(.*) b/(.*)` captures up to the last
`" b/"`). -/
def splitLastInfix (sep : PyStr) : PyStr → Option (PyStr × PyStr)
  | [] => if sep = [] then some ([], []) else none
  | c :: t =>
    match splitLastInfix sep t with
    | some (a, b) => some (c :: a, b)
    | none =>
      if List.isPrefixOf sep (c :: t) then
        some ([], (c :: t).drop sep.length)
      else none

/-- The regex `diff --git a/(.*) b/(.*)` applied with `re.match`. -/
def matchDiffGit (line : PyStr) : Option (PyStr × PyStr) :=
  if List.isPrefixOf ("diff --git a/".data) line then
    splitLastInfix (" b/".data) (line.drop ("diff --git a/".data).length)
  else none

def digitsToNat (ds : PyStr) : Nat :=
  ds.foldl (fun n c => n * 10 + (c.toNat - 48)) 0

/-- Parse `(\d+)(?:,(\d+))?` with a missing count defaulting to 1
(the `int(... or 1)` in the source); returns the remaining input. -/
def parseNumPair (l : PyStr) : Option (Nat × Nat × PyStr) :=
  let d1 := l.takeWhile Char.isDigit
  let r1 := l.dropWhile Char.isDigit
  if d1 = [] then none
  else
    match r1 with
    | ',' :: r2 =>
      let d2 := r2.takeWhile Char.isDigit
      let r3 := r2.dropWhile Char.isDigit
      if d2 = [] then none
      else some (digitsToNat d1, digitsToNat d2, r3)
    | _ => some (digitsToNat d1, 1, r1)

/-- The hunk-header regex
`@@ -(\d+)(?:,(\d+))? \+(\d+)(?:,(\d+))? @@` applied with `re.match`. -/
def matchHunk (line : PyStr) : Option (Nat × Nat × Nat × Nat) :=
  if List.isPrefixOf ("@@ -".data) line then
    match parseNumPair (line.drop 4) with
    | none => none
    | some (os, oc, r) =>
      if List.isPrefixOf (" +".data) r then
        match parseNumPair (r.drop 2) with
        | none => none
        | some (ns, nc, r2) =>
          if List.isPrefixOf (" @@".data) r2 then some (os, oc, ns, nc)
          else none
      else none
  else none

/-- Flush the open hunk (if any) into the open file, as done when a new
header or hunk starts and at end of input. -/
def flushHunk (f : FileDiff) (ch : Option DiffHunk) : FileDiff :=
  match ch with
  | some h => { f with hunks := f.hunks ++ [h] }
  | none => f

/-- The `FileDiff` created for a `diff --git` header line: regex-captured
paths, or the sentinel `"unknown"` on both when the regex fails. -/
def headerFile (line : PyStr) : FileDiff :=
  match matchDiffGit line with
  | some (o, np) => ⟨o, np, [], false, false, false⟩
  | none => ⟨"unknown".data, "unknown".data, [], false, false, false⟩

def addChange (mk : Char × PyStr) (ch : Option DiffHunk) : Option DiffHunk :=
  ch.map (fun h => { h with changes := h.changes ++ [mk] })

/-- The line loop of `parse_unified_diff`
(src/core/diff_parser.py:47-110).  The mode/binary flag updates use
`Option.map` on the open file, which coincides with the source's
`current_file is not None` guard (with no open file such lines match
neither the hunk regex nor a change marker and are ignored). -/
def parseLines : List PyStr → Option FileDiff → Option DiffHunk → List FileDiff
  | [], cf, ch =>
    match cf with
    | some f => [flushHunk f ch]
    | none => []
  | line :: rest, cf, ch =>
    if List.isPrefixOf ("diff --git".data) line then
      (match cf with
       | some f => [flushHunk f ch]
       | none => []) ++ parseLines rest (some (headerFile line)) none
    else if List.isPrefixOf ("new file mode".data) line then
      parseLines rest (cf.map (fun f => { f with is_new_file := true })) ch
    else if List.isPrefixOf ("deleted file mode".data) line then
      parseLines rest (cf.map (fun f => { f with is_deleted_file := true })) ch
    else if List.isPrefixOf ("Binary files".data) line then
      parseLines rest (cf.map (fun f => { f with is_binary := true })) ch
    else
      match matchHunk line, cf with
      | some (os, oc, ns, nc), some f =>
        parseLines rest (some (flushHunk f ch)) (some ⟨os, oc, ns, nc, []⟩)
      | _, _ =>
        if List.isPrefixOf ("+".data) line ∧
            ¬ List.isPrefixOf ("+++".data) line then
          parseLines rest cf (addChange ('+', line.drop 1) ch)
        else if List.isPrefixOf ("-".data) line ∧
            ¬ List.isPrefixOf ("---".data) line then
          parseLines rest cf (addChange ('-', line.drop 1) ch)
        else if List.isPrefixOf (" ".data) line then
          parseLines rest cf (addChange (' ', line.drop 1) ch)
        else
          parseLines rest cf ch

/-- `parse_unified_diff` (src/core/diff_parser.py:35-112). -/
def parse_unified_diff (diff_output : PyStr) : List FileDiff :=
  if diff_output = [] ∨ pyStrip diff_output = [] then []
  else parseLines (splitNL diff_output) none none

/-- The (old, new) path pair of a parsed file. -/
def filePaths (fd : FileDiff) : PyStr × PyStr := (fd.old_path, fd.new_path)

/-- The path pair a header line contributes: the regex captures, or the
`"unknown"` sentinel pair when the regex fails. -/
def headerPaths (line : PyStr) : PyStr × PyStr :=
  match matchDiffGit line with
  | some p => p
  | none => ("unknown".data, "unknown".data)

def isHeaderLine (l : PyStr) : Bool := List.isPrefixOf ("diff --git".data) l

theorem filePaths_flushHunk (f : FileDiff) (ch : Option DiffHunk) :
    filePaths (flushHunk f ch) = filePaths f := by
  cases ch <;> rfl

theorem filePaths_headerFile (line : PyStr) :
    filePaths (headerFile line) = headerPaths line := by
  unfold headerFile headerPaths
  rcases matchDiffGit line with _ | ⟨o, np⟩ <;> rfl

theorem parseLines_map_paths (lines : List PyStr) :
    ∀ (cf : Option FileDiff) (ch : Option DiffHunk),
      (parseLines lines cf ch).map filePaths =
        (cf.map filePaths).toList ++
          (lines.filter isHeaderLine).map headerPaths := by
  induction lines with
  | nil =>
    intro cf ch
    cases cf <;> simp [parseLines, filePaths_flushHunk]
  | cons line rest ih =>
    intro cf ch
    rw [parseLines.eq_def]
    dsimp only
    by_cases h1 : List.isPrefixOf ("diff --git".data) line
    · rw [if_pos h1,
        List.filter_cons_of_pos (by simpa [isHeaderLine] using h1)]
      cases cf with
      | none => simp [ih, filePaths_headerFile]
      | some f => simp [ih, filePaths_headerFile, filePaths_flushHunk]
    · rw [if_neg h1,
        List.filter_cons_of_neg (by simpa [isHeaderLine] using h1)]
      by_cases h2 : List.isPrefixOf ("new file mode".data) line
      · rw [if_pos h2, ih]
        cases cf <;> simp [filePaths]
      rw [if_neg h2]
      by_cases h3 : List.isPrefixOf ("deleted file mode".data) line
      · rw [if_pos h3, ih]
        cases cf <;> simp [filePaths]
      rw [if_neg h3]
      by_cases h4 : List.isPrefixOf ("Binary files".data) line
      · rw [if_pos h4, ih]
        cases cf <;> simp [filePaths]
      rw [if_neg h4]
      rcases hm : matchHunk line with _ | ⟨os, oc, ns, nc⟩ <;>
        cases cf with
      | _ =>
        first
        | (simp only [hm]
           rw [ih]
           simp [filePaths_flushHunk])
        | (simp only [hm]
           split_ifs <;> rw [ih])

/-- C6: `parse_unified_diff` returns exactly one `FileDiff` per line
beginning with `diff --git`, in header order (witnessed by the path
pairs); a header whose paths fail the `a/<old> b/<new>` regex yields
the sentinel `"unknown"` for both paths; the parser is total (it never
raises), and empty or whitespace-only input returns the empty list. -/
theorem claim_C6_parser_header_count_order :
    ∀ s : PyStr,
      (parse_unified_diff s).length =
          ((splitNL s).filter isHeaderLine).length ∧
      (parse_unified_diff s).map filePaths =
          ((splitNL s).filter isHeaderLine).map headerPaths ∧
      (pyStrip s = [] → parse_unified_diff s = []) ∧
      parse_unified_diff ("diff --git garbage".data) =
        [⟨"unknown".data, "unknown".data, [], false, false, false⟩] := by
  intro s
  have hmap : (parse_unified_diff s).map filePaths =
      ((splitNL s).filter isHeaderLine).map headerPaths := by
    unfold parse_unified_diff
    by_cases h : s = [] ∨ pyStrip s = []
    · rw [if_pos h]
      have hfil : (splitNL s).filter isHeaderLine = [] := by
        rcases h with h | h
        · subst h; decide
        · apply List.filter_eq_nil_iff.mpr
          intro piece hp
          simp only [isHeaderLine, Bool.not_eq_true]
          by_contra hpref
          rw [Bool.not_eq_false] at hpref
          have hpre := List.isPrefixOf_iff_prefix.mp hpref
          obtain ⟨t, ht⟩ := hpre
          have hd : 'd' ∈ piece := by
            rw [← ht]; simp
          have hds : 'd' ∈ s := splitNL_mem_subset s piece hp 'd' hd
          have := (pyStrip_eq_nil_iff s).mp h 'd' hds
          simp [isPySpace] at this
      rw [hfil]
      simp
    · rw [if_neg h]
      rw [parseLines_map_paths]
      simp
  refine ⟨?_, hmap, ?_, by decide⟩
  · have := congrArg List.length hmap
    simpa using this
  · intro h
    unfold parse_unified_diff
    rw [if_pos (Or.inr h)]

/-- C6 witness: whitespace-only input yields the empty list, by the
theorem applied at a concrete input. -/
theorem claim_C6_witness : parse_unified_diff ("  \n\t".data) = [] :=
  (claim_C6_parser_header_count_order ("  \n\t".data)).2.2.1 (by decide)

/-! ## Gist service: snapshots and incremental diff
(src/core/gist_service.py)

Python dictionaries are modelled as association lists with
insertion-order semantics: assignment to an existing key replaces the
value in place, a new key is appended at the end. -/

def alGet {α : Type} : List (PyStr × α) → PyStr → Option α
  | [], _ => none
  | (k, v) :: t, key => if k = key then some v else alGet t key

def alSet {α : Type} : List (PyStr × α) → PyStr → α → List (PyStr × α)
  | [], key, v => [(key, v)]
  | (k, w) :: t, key, v =>
    if k = key then (key, v) :: t else (k, w) :: alSet t key v

def keysNodup {α : Type} (l : List (PyStr × α)) : Prop :=
  (l.map Prod.fst).Nodup

instance {α : Type} (l : List (PyStr × α)) : Decidable (keysNodup l) := by
  unfold keysNodup
  infer_instance

/-- `FileDiffInfo` (src/core/gist_service.py:22-32). -/
structure FileDiffInfo where
  path : PyStr
  insertions : Nat
  deletions : Nat
  is_new : Bool
  is_deleted : Bool
  is_binary : Bool
  diff_content : PyStr
deriving DecidableEq

/-- `DiffSnapshot` (src/core/gist_service.py:35-47), restricted to
`raw_diff`, the only field `get_incremental_diff` reads (timestamp,
working path, stat output and the per-file map do not influence it). -/
structure DiffSnapshot where
  raw_diff : PyStr
deriving DecidableEq

/-- Python `line.split(" b/")` (used to extract the path from a
`diff --git` header in `_parse_diff_to_files`). -/
def splitBslash : PyStr → List PyStr
  | ' ' :: 'b' :: '/' :: t => [] :: splitBslash t
  | c :: t =>
    match splitBslash t with
    | h :: rest => (c :: h) :: rest
    | [] => [[c]]
  | [] => [[]]

/-- The line loop of `_parse_diff_to_files`
(src/core/gist_service.py:188-211): partition a raw diff into per-file
sections keyed by the path after the first `" b/"` of each header.
`current_file` is tested with Python truthiness (`if current_file:` /
`elif current_file:`), so both `None` and an empty captured path
(`parts[1] == ""`, e.g. from a header ending in `" b/"`) suppress the
flush and the content accumulation. -/
def parseFilesLoop :
    List PyStr → Option PyStr → List PyStr → List (PyStr × PyStr) →
      List (PyStr × PyStr)
  | [], cf, content, files =>
    match cf with
    | some (c :: f) => alSet files (c :: f) (List.intercalate ['\n'] content)
    | _ => files
  | line :: rest, cf, content, files =>
    if List.isPrefixOf ("diff --git".data) line then
      parseFilesLoop rest ((splitBslash line).get? 1) [line]
        (match cf with
         | some (c :: f) =>
           alSet files (c :: f) (List.intercalate ['\n'] content)
         | _ => files)
    else
      match cf with
      | some (_ :: _) => parseFilesLoop rest cf (content ++ [line]) files
      | _ => parseFilesLoop rest cf content files

/-- `_parse_diff_to_files` (src/core/gist_service.py:188-211). -/
def parseDiffToFiles (diff_output : PyStr) : List (PyStr × PyStr) :=
  parseFilesLoop (splitNL diff_output) none [] []

/-- One line of `_parse_file_diff_info`'s loop
(src/core/gist_service.py:218-228). -/
def fileInfoStep (info : FileDiffInfo) (line : PyStr) : FileDiffInfo :=
  if List.isPrefixOf ("new file mode".data) line then
    { info with is_new := true }
  else if List.isPrefixOf ("deleted file mode".data) line then
    { info with is_deleted := true }
  else if List.isPrefixOf ("Binary files".data) line then
    { info with is_binary := true }
  else if List.isPrefixOf ("+".data) line ∧
      ¬ List.isPrefixOf ("+++".data) line then
    { info with insertions := info.insertions + 1 }
  else if List.isPrefixOf ("-".data) line ∧
      ¬ List.isPrefixOf ("---".data) line then
    { info with deletions := info.deletions + 1 }
  else info

/-- `_parse_file_diff_info` (src/core/gist_service.py:214-230). -/
def parse_file_diff_info (file_path : PyStr) (diff_content : PyStr) :
    FileDiffInfo :=
  (splitNL diff_content).foldl fileInfoStep
    ⟨file_path, 0, 0, false, false, false, diff_content⟩

/-- `get_incremental_diff` (src/core/gist_service.py:136-185).  The two
`git diff` subprocess invocations are external: `current_diff` is the
full diff text the diff command returned, and `snapshots` is the
module-level `_diff_snapshots` store. -/
def get_incremental_diff (snapshots : List (PyStr × DiffSnapshot))
    (session_key : PyStr) (current_diff : PyStr) :
    List FileDiffInfo × PyStr × PyStr :=
  if pyStrip current_diff = [] then ([], [], [])
  else
    let previous_diff :=
      match alGet snapshots session_key with
      | some snap => snap.raw_diff
      | none => []
    let current_files := parseDiffToFiles current_diff
    let previous_files :=
      if previous_diff ≠ [] then parseDiffToFiles previous_diff else []
    let changed := current_files.filter
      (fun pf => pf.2 ≠ ((alGet previous_files pf.1).getD []))
    (changed.map (fun pf => parse_file_diff_info pf.1 pf.2),
     List.intercalate ['\n'] (changed.map (fun pf => pf.2)),
     current_diff)

/-- The snapshot's per-file segments as `get_incremental_diff` computes
them: the stored raw diff re-partitioned, a missing or empty snapshot
giving the empty map. -/
def prevFiles (snapshots : List (PyStr × DiffSnapshot))
    (session_key : PyStr) : List (PyStr × PyStr) :=
  let previous_diff :=
    match alGet snapshots session_key with
    | some snap => snap.raw_diff
    | none => []
  if previous_diff ≠ [] then parseDiffToFiles previous_diff else []

/-! ### Dictionary lemmas -/

theorem alGet_mem {α : Type} (l : List (PyStr × α)) (k : PyStr) (v : α)
    (h : alGet l k = some v) : (k, v) ∈ l := by
  induction l with
  | nil => simp [alGet] at h
  | cons hd t ih =>
    obtain ⟨k', v'⟩ := hd
    by_cases hk : k' = k
    · simp only [alGet, if_pos hk] at h
      subst hk
      simp_all
    · simp only [alGet, if_neg hk] at h
      exact List.mem_cons_of_mem _ (ih h)

theorem alGet_eq_none {α : Type} (l : List (PyStr × α)) (k : PyStr)
    (h : alGet l k = none) : ∀ v, (k, v) ∉ l := by
  induction l with
  | nil => simp
  | cons hd t ih =>
    obtain ⟨k', v'⟩ := hd
    by_cases hk : k' = k
    · simp [alGet, if_pos hk] at h
    · simp only [alGet, if_neg hk] at h
      intro v hv
      rcases List.mem_cons.mp hv with h' | h'
      · exact hk (by injection h' with h1 h2; exact h1.symm)
      · exact ih h v h'

theorem mem_alGet {α : Type} (l : List (PyStr × α)) (k : PyStr) (v : α)
    (hnd : keysNodup l) (h : (k, v) ∈ l) : alGet l k = some v := by
  induction l with
  | nil => simp at h
  | cons hd t ih =>
    obtain ⟨k', v'⟩ := hd
    unfold keysNodup at hnd
    simp only [List.map_cons, List.nodup_cons] at hnd
    rcases List.mem_cons.mp h with h' | h'
    · injection h' with h1 h2
      subst h1; subst h2
      simp [alGet]
    · by_cases hk : k' = k
      · subst hk
        exact absurd (List.mem_map.mpr ⟨(k', v), h', rfl⟩) hnd.1
      · simp only [alGet, if_neg hk]
        exact ih hnd.2 h'

theorem alSet_mem_keys {α : Type} (l : List (PyStr × α)) (k : PyStr)
    (v : α) (x : PyStr) :
    x ∈ (alSet l k v).map Prod.fst ↔ x ∈ l.map Prod.fst ∨ x = k := by
  induction l with
  | nil => simp [alSet]
  | cons hd t ih =>
    obtain ⟨k', v'⟩ := hd
    by_cases hk : k' = k
    · subst hk
      simp only [alSet, if_pos rfl]
      simp only [List.map_cons]
      constructor
      · intro h
        rcases List.mem_cons.mp h with h | h
        · exact Or.inr h
        · exact Or.inl (List.mem_cons_of_mem _ h)
      · intro h
        rcases h with h | h
        · rcases List.mem_cons.mp h with h | h
          · exact List.mem_cons.mpr (Or.inl h)
          · exact List.mem_cons_of_mem _ h
        · exact List.mem_cons.mpr (Or.inl h)
    · simp only [alSet, if_neg hk, List.map_cons, List.mem_cons, ih]
      tauto

theorem alSet_keysNodup {α : Type} (l : List (PyStr × α)) (k : PyStr)
    (v : α) (h : keysNodup l) : keysNodup (alSet l k v) := by
  induction l with
  | nil => simp [alSet, keysNodup]
  | cons hd t ih =>
    obtain ⟨k', v'⟩ := hd
    unfold keysNodup at h ⊢
    simp only [List.map_cons, List.nodup_cons] at h
    by_cases hk : k' = k
    · subst hk
      have he : alSet ((k', v') :: t) k' v = (k', v) :: t := by
        simp only [alSet, if_pos]
      rw [he]
      simp only [List.map_cons, List.nodup_cons]
      exact h
    · simp only [alSet, if_neg hk, List.map_cons, List.nodup_cons]
      refine ⟨?_, ih h.2⟩
      intro hmem
      rcases (alSet_mem_keys t k v k').mp hmem with h' | h'
      · exact h.1 h'
      · exact hk h'

theorem parseFilesLoop_keysNodup (lines : List PyStr) :
    ∀ (cf : Option PyStr) (content : List PyStr)
      (files : List (PyStr × PyStr)),
      keysNodup files → keysNodup (parseFilesLoop lines cf content files) := by
  induction lines with
  | nil =>
    intro cf content files h
    rcases cf with _ | (_ | ⟨c, f⟩)
    · exact h
    · exact h
    · exact alSet_keysNodup _ _ _ h
  | cons line rest ih =>
    intro cf content files h
    rw [parseFilesLoop.eq_def]
    dsimp only
    split
    · rcases cf with _ | (_ | ⟨c, f⟩)
      · exact ih _ _ _ h
      · exact ih _ _ _ h
      · exact ih _ _ _ (alSet_keysNodup _ _ _ h)
    · rcases cf with _ | (_ | ⟨c, f⟩)
      · exact ih _ _ _ h
      · exact ih _ _ _ h
      · exact ih _ _ _ h

theorem parseDiffToFiles_keysNodup (d : PyStr) :
    keysNodup (parseDiffToFiles d) :=
  parseFilesLoop_keysNodup _ _ _ _ (by simp [keysNodup])

theorem parse_file_diff_info_path (p seg : PyStr) :
    (parse_file_diff_info p seg).path = p := by
  unfold parse_file_diff_info
  generalize splitNL seg = lines
  have h : ∀ (ls : List PyStr) (info : FileDiffInfo),
      (ls.foldl fileInfoStep info).path = info.path := by
    intro ls
    induction ls with
    | nil => intro info; rfl
    | cons l t ih =>
      intro info
      rw [List.foldl_cons, ih]
      unfold fileInfoStep
      split_ifs <;> rfl
  exact h lines _

/-- Membership in the changed-file paths of the incremental scan, for
an arbitrary current-file map with distinct keys and an arbitrary
previous-file map. -/
theorem incrementalScan_mem_iff (current prevF : List (PyStr × PyStr))
    (hnd : keysNodup current) (p : PyStr) :
    p ∈ ((current.filter
            (fun q => q.2 ≠ ((alGet prevF q.1).getD []))).map
          (fun q => parse_file_diff_info q.1 q.2)).map FileDiffInfo.path ↔
      ∃ seg, alGet current p = some seg ∧
        seg ≠ (alGet prevF p).getD [] := by
  rw [List.map_map]
  constructor
  · intro hp
    obtain ⟨q, hq, hpath⟩ := List.mem_map.mp hp
    obtain ⟨q1, q2⟩ := q
    obtain ⟨hmem, hpred⟩ := List.mem_filter.mp hq
    simp only [Function.comp_apply, parse_file_diff_info_path] at hpath
    subst hpath
    exact ⟨q2, mem_alGet _ _ _ hnd hmem, by simpa using hpred⟩
  · intro ⟨seg, hget, hne⟩
    have hmem : (p, seg) ∈ current := alGet_mem _ _ _ hget
    have hfil : (p, seg) ∈ current.filter
        (fun q => q.2 ≠ ((alGet prevF q.1).getD [])) :=
      List.mem_filter.mpr ⟨hmem, by simpa using hne⟩
    exact List.mem_map.mpr ⟨(p, seg), hfil, by
      simp [parse_file_diff_info_path]⟩

/-- C4: `get_incremental_diff` returns as changed exactly the files
whose current per-file segment differs textually from the snapshot's
segment for the same path (a missing previous entry treated as the
empty string); files whose current segment equals the snapshot's are
excluded, and files present in the snapshot but absent from the current
diff (reverted) are never reported. -/
theorem claim_C4_incremental_diff_exclusion :
    ∀ (snapshots : List (PyStr × DiffSnapshot))
      (session_key current_diff : PyStr),
      (∀ p : PyStr,
          p ∈ (get_incremental_diff snapshots session_key
                current_diff).1.map FileDiffInfo.path ↔
            pyStrip current_diff ≠ [] ∧
              ∃ seg, alGet (parseDiffToFiles current_diff) p = some seg ∧
                seg ≠ (alGet (prevFiles snapshots session_key) p).getD []) ∧
      (∀ p : PyStr, alGet (parseDiffToFiles current_diff) p = none →
          p ∉ (get_incremental_diff snapshots session_key
                current_diff).1.map FileDiffInfo.path) := by
  intro snapshots session_key current_diff
  have hpaths : ∀ p : PyStr,
      p ∈ (get_incremental_diff snapshots session_key
            current_diff).1.map FileDiffInfo.path ↔
        pyStrip current_diff ≠ [] ∧
          ∃ seg, alGet (parseDiffToFiles current_diff) p = some seg ∧
            seg ≠ (alGet (prevFiles snapshots session_key) p).getD [] := by
    intro p
    by_cases h : pyStrip current_diff = []
    · unfold get_incremental_diff
      rw [if_pos h]
      simp [h]
    · have hres : (get_incremental_diff snapshots session_key
          current_diff).1 =
          ((parseDiffToFiles current_diff).filter
            (fun q =>
              q.2 ≠ ((alGet (prevFiles snapshots session_key) q.1).getD []))).map
            (fun q => parse_file_diff_info q.1 q.2) := by
        unfold get_incremental_diff prevFiles
        rw [if_neg h]
      rw [hres,
        incrementalScan_mem_iff _ _ (parseDiffToFiles_keysNodup _) p]
      exact ⟨fun hx => ⟨h, hx⟩, fun hx => hx.2⟩
  refine ⟨hpaths, ?_⟩
  intro p hnone hp
  obtain ⟨-, seg, hget, -⟩ := (hpaths p).mp hp
  rw [hnone] at hget
  exact Option.noConfusion hget

/-- Snapshot diff for the A/B/C scenario: files A, B, C all present. -/
def snapDiffC4 : PyStr :=
  ("diff --git a/A b/A\n@@ -1 +1 @@\n-x\n+y\n" ++
   "diff --git a/B b/B\n@@ -1 +1 @@\n-1\n+2\n" ++
   "diff --git a/C b/C\n@@ -1 +1 @@\n-p\n+q").data

/-- Current diff for the A/B/C scenario: A unchanged, B changed,
C reverted (absent). -/
def curDiffC4 : PyStr :=
  ("diff --git a/A b/A\n@@ -1 +1 @@\n-x\n+y\n" ++
   "diff --git a/B b/B\n@@ -1 +1 @@\n-1\n+3").data

def snapsC4 : List (PyStr × DiffSnapshot) := [("k".data, ⟨snapDiffC4⟩)]

/-- C4 witness: in the A/B/C scenario the changed set is exactly
`{B}` — B (changed) is reported, C (reverted) is not. -/
theorem claim_C4_witness :
    ("B".data ∈ (get_incremental_diff snapsC4 ("k".data)
        curDiffC4).1.map FileDiffInfo.path) ∧
    ("C".data ∉ (get_incremental_diff snapsC4 ("k".data)
        curDiffC4).1.map FileDiffInfo.path) ∧
    (get_incremental_diff snapsC4 ("k".data)
        curDiffC4).1.map FileDiffInfo.path = ["B".data] :=
  ⟨((claim_C4_incremental_diff_exclusion snapsC4 ("k".data)
        curDiffC4).1 ("B".data)).mpr
      ⟨by decide,
       ("diff --git a/B b/B\n@@ -1 +1 @@\n-1\n+3").data,
       by decide, by decide⟩,
   (claim_C4_incremental_diff_exclusion snapsC4 ("k".data)
        curDiffC4).2 ("C".data) (by decide),
   by decide⟩

/-! ## Change publisher: `create_diff_gist`
(src/core/gist_service.py:250-337)

The external effects are made explicit: the file system is a multiset
of existing paths, `tempfile.mkdtemp` / `tempfile.NamedTemporaryFile`
yield environment-chosen fresh names (and create the directory/file),
`f.write` may raise (environment-chosen `OSError` message), and the
`gh` subprocess has an environment-chosen outcome.  The `finally`
block's `os.unlink` calls remove one occurrence each (a failing unlink
is swallowed, i.e. a no-op), and `os.rmdir` removes the directory only
when no path under it remains (otherwise the raised error is
swallowed). -/

/-- Exceptions the body of `create_diff_gist` can raise. -/
inductive GistExn
  | fileNotFound
  | raised (msg : PyStr)
deriving DecidableEq

/-- Outcome of the `gh gist create` subprocess invocation. -/
inductive ProcOutcome
  | result (returncode : Int) (stdout : PyStr) (stderr : PyStr)
  | notFound
  | raised (msg : PyStr)
deriving DecidableEq

structure GistEnv where
  tempDirName : PyStr
  namedTempName : PyStr
  writeFails : PyStr → Option PyStr
  proc : ProcOutcome

/-- `os.unlink`: remove one occurrence of a path; removing an absent
path raises, which the cleanup code swallows (a no-op here). -/
def fsRemove : List PyStr → PyStr → List PyStr
  | [], _ => []
  | p :: t, x => if p = x then t else p :: fsRemove t x

/-- `_sanitize_filename` (src/core/gist_service.py:245-247). -/
def sanitize_filename (file_path : PyStr) : PyStr :=
  (file_path.map (fun c => if c = '/' ∨ c = '\\' then '_' else c)) ++
    ".diff".data

/-- The per-file temp-file writing loop
(src/core/gist_service.py:288-293): each `open(temp_path, "w")`
creates the file, then `f.write` may raise; only after a successful
write is the path recorded in `temp_files`. -/
def writeTempFiles (env : GistEnv) :
    List (PyStr × PyStr) → List PyStr → List PyStr →
      List PyStr × List PyStr × Option GistExn
  | [], fs, tempFiles => (fs, tempFiles, none)
  | (path, _) :: rest, fs, tempFiles =>
    let nm := env.tempDirName ++ '/' :: sanitize_filename path
    match env.writeFails nm with
    | some msg => (nm :: fs, tempFiles, some (GistExn.raised msg))
    | none => writeTempFiles env rest (nm :: fs) (tempFiles ++ [nm])

/-- The `gh gist create` call and result handling
(src/core/gist_service.py:304-320): nonzero exit yields the trimmed
stderr as the error, exit 0 yields the trimmed stdout as the URL. -/
def runGh (env : GistEnv) : Except GistExn (Option PyStr × Option PyStr) :=
  match env.proc with
  | ProcOutcome.notFound => Except.error GistExn.fileNotFound
  | ProcOutcome.raised msg => Except.error (GistExn.raised msg)
  | ProcOutcome.result rc out err =>
    if rc ≠ 0 then Except.ok (none, some (pyStrip err))
    else Except.ok (some (pyStrip out), none)

/-- The `try` body of `create_diff_gist`
(src/core/gist_service.py:280-320): returns the body's result or
exception, the file system after the body, the recorded `temp_files`
and the created `temp_dir` (if any). -/
def gistBody (env : GistEnv) (fs : List PyStr) (diff_output : PyStr)
    (per_file : Bool) :
    Except GistExn (Option PyStr × Option PyStr) × List PyStr ×
      List PyStr × Option PyStr :=
  if per_file then
    let files_dict := parseDiffToFiles diff_output
    if files_dict = [] then
      (Except.ok (none, some ("No files to diff".data)), fs, [], none)
    else
      match writeTempFiles env files_dict (env.tempDirName :: fs) [] with
      | (fs2, tfs, some e) => (Except.error e, fs2, tfs, some env.tempDirName)
      | (fs2, tfs, none) => (runGh env, fs2, tfs, some env.tempDirName)
  else
    match env.writeFails env.namedTempName with
    | some msg =>
      (Except.error (GistExn.raised msg), env.namedTempName :: fs, [], none)
    | none =>
      (runGh env, env.namedTempName :: fs, [env.namedTempName], none)

/-- `create_diff_gist` (src/core/gist_service.py:250-337): the early
guard, the body, the two `except` handlers, and the `finally` cleanup,
returning the `(gist_url, error_message)` pair and the final file
system. -/
def create_diff_gist (env : GistEnv) (fs : List PyStr)
    (diff_output : PyStr) (per_file : Bool) :
    (Option PyStr × Option PyStr) × List PyStr :=
  if diff_output = [] ∨ pyStrip diff_output = [] then
    ((none, some ("No diff content".data)), fs)
  else
    match gistBody env fs diff_output per_file with
    | (r, fs2, tfs, tdir) =>
      let value :=
        match r with
        | Except.ok v => v
        | Except.error GistExn.fileNotFound =>
          (none, some ("gh CLI not found. Install with: brew install gh".data))
        | Except.error (GistExn.raised msg) => (none, some msg)
      let fs3 := tfs.foldl (fun acc nm => fsRemove acc nm) fs2
      let fs4 :=
        match tdir with
        | some d =>
          if fs3.any (fun p => List.isPrefixOf (d ++ ['/']) p) then fs3
          else fsRemove fs3 d
        | none => fs3
      (value, fs4)

/-! ### C8: errors as values -/

/-- The temp-file names created for a per-file publish. -/
def gistNames (env : GistEnv) (l : List (PyStr × PyStr)) : List PyStr :=
  l.map (fun q => env.tempDirName ++ '/' :: sanitize_filename q.1)

theorem writeTempFiles_ok (env : GistEnv)
    (h : ∀ p, env.writeFails p = none) :
    ∀ (l : List (PyStr × PyStr)) (fs tfs : List PyStr),
      writeTempFiles env l fs tfs =
        ((gistNames env l).reverse ++ fs, tfs ++ gistNames env l, none) := by
  intro l
  induction l with
  | nil => intro fs tfs; simp [writeTempFiles, gistNames]
  | cons q rest ih =>
    intro fs tfs
    obtain ⟨path, seg⟩ := q
    rw [writeTempFiles]
    rw [h (env.tempDirName ++ '/' :: sanitize_filename path)]
    rw [ih]
    simp [gistNames]

theorem gistBody_ok (env : GistEnv) (fs : List PyStr) (diff : PyStr)
    (per_file : Bool) (hw : ∀ p, env.writeFails p = none)
    (hne : per_file = true → parseDiffToFiles diff ≠ []) :
    (gistBody env fs diff per_file).1 = runGh env := by
  cases per_file with
  | true =>
    rw [gistBody, if_pos rfl, if_neg (by simpa using hne rfl)]
    rw [writeTempFiles_ok env hw]
  | false =>
    rw [gistBody, if_neg (by simp)]
    rw [hw env.namedTempName]

/-- C8: `create_diff_gist` never raises to its caller (the model is a
total function) and returns errors as values: nonzero tool exit yields
`(no URL, trimmed stderr)`; exit 0 yields `(trimmed stdout, no
error)`; a missing `gh` binary yields the specific \"gh CLI not
found\" message; any other exception yields its message string. -/
theorem claim_C8_gist_errors_as_values :
    ∀ (env : GistEnv) (fs : List PyStr) (diff : PyStr) (per_file : Bool),
      pyStrip diff ≠ [] →
      (per_file = true → parseDiffToFiles diff ≠ []) →
      (∀ p, env.writeFails p = none) →
      ((∀ rc out err, env.proc = ProcOutcome.result rc out err → rc ≠ 0 →
          (create_diff_gist env fs diff per_file).1 =
            (none, some (pyStrip err))) ∧
       (∀ out err, env.proc = ProcOutcome.result 0 out err →
          (create_diff_gist env fs diff per_file).1 =
            (some (pyStrip out), none)) ∧
       (env.proc = ProcOutcome.notFound →
          (create_diff_gist env fs diff per_file).1 =
            (none,
             some ("gh CLI not found. Install with: brew install gh".data))) ∧
       (∀ msg, env.proc = ProcOutcome.raised msg →
          (create_diff_gist env fs diff per_file).1 = (none, some msg))) := by
  intro env fs diff per_file hstrip hne hw
  have hguard : ¬(diff = [] ∨ pyStrip diff = []) := by
    rintro (h | h)
    · exact hstrip (by subst h; rfl)
    · exact hstrip h
  have hval : (create_diff_gist env fs diff per_file).1 =
      (match runGh env with
       | Except.ok v => v
       | Except.error GistExn.fileNotFound =>
         (none, some ("gh CLI not found. Install with: brew install gh".data))
       | Except.error (GistExn.raised msg) => (none, some msg)) := by
    unfold create_diff_gist
    rw [if_neg hguard]
    rcases hb : gistBody env fs diff per_file with ⟨r, fs2, tfs, tdir⟩
    have hr : r = runGh env := by
      have := gistBody_ok env fs diff per_file hw hne
      rw [hb] at this
      exact this
    subst hr
    rfl
  refine ⟨?_, ?_, ?_, ?_⟩
  · intro rc out err hp hrc
    rw [hval, runGh, hp]
    simp [hrc]
  · intro out err hp
    rw [hval, runGh, hp]
    simp
  · intro hp
    rw [hval, runGh, hp]
  · intro msg hp
    rw [hval, runGh, hp]

def envC8 : GistEnv :=
  ⟨"/tmp/T".data, "/tmp/N".data, fun _ => none,
   ProcOutcome.result 1 [] ("err\n".data)⟩

def diffC8 : PyStr := ("diff --git a/A b/A\n+x").data

/-- C8 witness: a nonzero tool exit at a concrete input yields the
trimmed stderr as the error value. -/
theorem claim_C8_witness :
    (create_diff_gist envC8 [] diffC8 true).1 = (none, some ("err".data)) := by
  have h := (claim_C8_gist_errors_as_values envC8 [] diffC8 true
    (by decide) (fun _ => by decide) (fun p => rfl)).1 1 [] ("err\n".data)
    rfl (by decide)
  simpa using h

/-! ### C9: temp-file cleanup -/

def envC9 : GistEnv :=
  ⟨"/tmp/T".data, "/tmp/N".data,
   fun _ => some ("No space left on device".data),
   ProcOutcome.result 0 ("u".data) []⟩

/-- C9 counterexample: when a file write raises after `open` created
the file but before the path was recorded in `temp_files`, the created
temp file and the temp directory are both left behind at return — the
claim's \"every temporary file created is removed and the temporary
directory removed\" fails on this exception path. -/
theorem claim_C9_counterexample :
    ("/tmp/T/A.diff".data ∈ (create_diff_gist envC9 [] diffC8 true).2) ∧
    ("/tmp/T".data ∈ (create_diff_gist envC9 [] diffC8 true).2) ∧
    (create_diff_gist envC9 [] diffC8 true).1 =
      (none, some ("No space left on device".data)) := by decide

theorem perm_any_eq {p : PyStr → Bool} {l₁ l₂ : List PyStr}
    (h : l₁.Perm l₂) : l₁.any p = l₂.any p := by
  apply Bool.eq_iff_iff.mpr
  simp only [List.any_eq_true]
  constructor
  · rintro ⟨x, hx, hp⟩
    exact ⟨x, h.mem_iff.mp hx, hp⟩
  · rintro ⟨x, hx, hp⟩
    exact ⟨x, h.mem_iff.mpr hx, hp⟩

theorem fsRemove_cons (p : PyStr) (t : List PyStr) (x : PyStr) :
    fsRemove (p :: t) x = if p = x then t else p :: fsRemove t x := rfl

theorem fsRemove_cons_self (x : PyStr) (t : List PyStr) :
    fsRemove (x :: t) x = t := by
  simp [fsRemove]

theorem fsRemove_perm (x : PyStr) {X Y : List PyStr} (h : X.Perm Y) :
    (fsRemove X x).Perm (fsRemove Y x) := by
  induction h with
  | nil => exact List.Perm.refl _
  | cons a h ih =>
    rw [fsRemove_cons, fsRemove_cons]
    split
    · exact h
    · exact ih.cons a
  | swap a b l =>
    by_cases hb : b = x <;> by_cases ha : a = x <;>
      simp only [fsRemove_cons, hb, ha, eq_self_iff_true, if_true,
        if_false, ite_true, ite_false] <;>
      first
      | exact List.Perm.refl _
      | exact List.Perm.swap _ _ _
  | trans h1 h2 ih1 ih2 => exact ih1.trans ih2

theorem eraseFold_perm_congr (ns : List PyStr) :
    ∀ {X Y : List PyStr}, X.Perm Y →
      (ns.foldl (fun acc nm => fsRemove acc nm) X).Perm
        (ns.foldl (fun acc nm => fsRemove acc nm) Y) := by
  induction ns with
  | nil => intro X Y h; exact h
  | cons n t ih =>
    intro X Y h
    simp only [List.foldl_cons]
    exact ih (fsRemove_perm n h)

theorem eraseFold_reverse (ns : List PyStr) :
    ∀ rest : List PyStr,
      (ns.foldl (fun acc nm => fsRemove acc nm) (ns.reverse ++ rest)).Perm
        rest := by
  induction ns with
  | nil => intro rest; simp
  | cons n t ih =>
    intro rest
    simp only [List.foldl_cons]
    have h1 : ((n :: t).reverse ++ rest).Perm (n :: (t.reverse ++ rest)) := by
      rw [List.reverse_cons, List.append_assoc]
      exact List.perm_middle
    have h2 : (fsRemove ((n :: t).reverse ++ rest) n).Perm
        (t.reverse ++ rest) := by
      have hp := fsRemove_perm n h1
      rwa [fsRemove_cons_self] at hp
    exact (eraseFold_perm_congr t h2).trans (ih rest)

theorem notPrefix_append_single (d : PyStr) :
    ¬ List.isPrefixOf (d ++ ['/']) d = true := by
  intro h
  have := (List.isPrefixOf_iff_prefix.mp h).length_le
  simp at this

/-- C9 as amended: on every execution path on which each file write
succeeds (success, nonzero tool exit, missing binary, or a subprocess
exception — i.e. every exception raised after the temp files were
recorded), every temporary file created during the call and the
temporary directory are removed before return: the final file system
is a permutation of the initial one.  (When a write itself raises, the
just-created unrecorded file and the directory are left behind — see
the counterexample.) -/
theorem claim_C9_amended_cleanup :
    ∀ (env : GistEnv) (fs : List PyStr) (diff : PyStr) (per_file : Bool),
      (∀ p, env.writeFails p = none) →
      (∀ p ∈ fs, ¬ List.isPrefixOf (env.tempDirName ++ ['/']) p = true) →
      ((create_diff_gist env fs diff per_file).2).Perm fs := by
  intro env fs diff per_file hw hfs
  unfold create_diff_gist
  by_cases hg : diff = [] ∨ pyStrip diff = []
  · rw [if_pos hg]
  · rw [if_neg hg]
    cases per_file with
    | false =>
      rw [gistBody, if_neg (by simp), hw env.namedTempName]
      dsimp only
      rw [List.foldl_cons, List.foldl_nil, fsRemove_cons_self]
    | true =>
      rw [gistBody, if_pos rfl]
      by_cases hfd : parseDiffToFiles diff = []
      · rw [if_pos hfd]
        dsimp only
        rw [List.foldl_nil]
      · rw [if_neg hfd, writeTempFiles_ok env hw]
        dsimp only
        rw [List.nil_append]
        have h3 : ((gistNames env (parseDiffToFiles diff)).foldl
            (fun acc nm => fsRemove acc nm)
            ((gistNames env (parseDiffToFiles diff)).reverse ++
              (env.tempDirName :: fs))).Perm (env.tempDirName :: fs) :=
          eraseFold_reverse _ _
        have hany : ((gistNames env (parseDiffToFiles diff)).foldl
            (fun acc nm => fsRemove acc nm)
            ((gistNames env (parseDiffToFiles diff)).reverse ++
              (env.tempDirName :: fs))).any
            (fun p => List.isPrefixOf (env.tempDirName ++ ['/']) p) = false := by
          rw [perm_any_eq h3]
          simp only [List.any_cons, Bool.or_eq_false_iff,
            List.any_eq_false]
          refine ⟨Bool.eq_false_iff.mpr
            (notPrefix_append_single env.tempDirName), ?_⟩
          intro x hx
          exact hfs x hx
        rw [hany]
        simp only [Bool.false_eq_true, if_false]
        have h4 := fsRemove_perm env.tempDirName h3
        rwa [fsRemove_cons_self] at h4

def envC9ok : GistEnv :=
  ⟨"/tmp/T".data, "/tmp/N".data, fun _ => none,
   ProcOutcome.result 0 ("u".data) []⟩

/-- C9 (amended) witness: with succeeding writes at a concrete input,
the file system is restored. -/
theorem claim_C9_amended_witness :
    ((create_diff_gist envC9ok ["x".data] diffC8 true).2).Perm ["x".data] :=
  claim_C9_amended_cleanup envC9ok ["x".data] diffC8 true (fun _ => rfl)
    (by decide)

/-! ## Controller: `Controller.emit_agent_message`
(src/core/controller.py:434-633)

The platform adapter is modelled by an oracle deciding, per call,
whether the call raises and what it returns; the per-key
`asyncio.Lock` serialises the whole append-classify-split-send
sequence, so one locked invocation is one evaluation of `emitLog`. -/

structure MsgContext where
  user_id : PyStr
  channel_id : PyStr
  thread_id : Option PyStr
  message_id : Option PyStr
deriving DecidableEq

/-- A platform-adapter call made by the controller (the target context
argument is not recorded: no claim refers to it). -/
inductive PCall
  | send (text : PyStr)
  | edit (msg_id : PyStr) (text : PyStr)
  | upload (content : PyStr)
deriving DecidableEq

/-- The adapter's reply to one call: `success id ret` carries the new
message id (for `send_message`) and the returned boolean (for
`edit_message`); `exn` means the call raised. -/
inductive CallResult
  | success (newId : PyStr) (ret : Bool)
  | exn
deriving DecidableEq

/-- The adapter oracle: the reply to a call is a function of the full
call history up to and including that call. -/
def Oracle := List PCall → CallResult

/-- The controller state touched by `emit_agent_message`: the
`_consolidated_message_ids` and `_consolidated_message_buffers`
dictionaries, plus the gist module's `_diff_snapshots` store. -/
structure ConsState where
  consolidated_message_ids : List (PyStr × PyStr)
  consolidated_message_buffers : List (PyStr × PyStr)
  diff_snapshots : List (PyStr × DiffSnapshot)
deriving DecidableEq

/-- External collaborators consumed by `emit_agent_message`: the
settings lookup (hidden message types), the platform upload
capability, and the diff-gist notification step
(`_send_diff_gist_notification`, whose git/gist subprocess work is
external I/O; it makes some platform calls and may clear the
session's snapshot, all exceptions caught). -/
structure Env where
  isMessageTypeHidden : PyStr → PyStr → Bool
  hasUploadCapability : Bool
  diffGistNotification :
    List (PyStr × DiffSnapshot) → List PCall × List (PyStr × DiffSnapshot)

def getSettingsKey (ctx : MsgContext) : PyStr := ctx.channel_id

/-- `Controller._get_consolidated_message_key`
(src/core/controller.py:239-245). -/
def getConsolidatedMessageKey (ctx : MsgContext) : PyStr :=
  getSettingsKey ctx ++ ':' :: (ctx.thread_id.getD ctx.channel_id) ++
    ':' :: (ctx.message_id.getD [])

/-- Modelled from the spec:
`SettingsManager._canonicalize_message_type` lives in
modules/settings_manager.py, which is not under src/.  Per spec §4.4 it
maps a free-form label case-insensitively into
`{notify, result, system, assistant, toolcall}`, defaulting to
`assistant` for unrecognised labels. -/
def canonicalizeMessageType (label : PyStr) : PyStr :=
  let l := label.map Char.toLower
  if l = "notify".data ∨ l = "result".data ∨ l = "system".data ∨
      l = "assistant".data ∨ l = "toolcall".data then l
  else "assistant".data

/-- `Controller._get_consolidated_max_bytes`: the Slack hard limit of
4000 UTF-8 bytes. -/
def consolidatedMaxBytes : Nat := 4000

/-- `Controller._get_consolidated_split_threshold`: 90% of the max. -/
def consolidatedSplitThreshold : Nat := 3600

/-- `Controller._get_result_max_chars`. -/
def resultMaxChars : Nat := 30000

def continuationNotice : PyStr := "\n\n---\n\n_(continued below...)_".data

def consolidatedSeparator : PyStr := "\n\n---\n\n".data

/-- `Controller._build_result_summary` (src/core/controller.py:298-304),
character-count based. -/
def buildResultSummary (text : PyStr) (max_chars : Nat) : PyStr :=
  if text.length ≤ max_chars then text
  else
    let pre := "Result too long; showing a summary.\n\n".data
    let suf := "\n\n…(truncated; see result.md for full output)".data
    pre ++ text.take (max_chars - (pre.length + suf.length)) ++ suf

/-- `dict.pop(key, None)`. -/
def alPop {α : Type} : List (PyStr × α) → PyStr → List (PyStr × α)
  | [], _ => []
  | (k, v) :: t, key => if k = key then t else (k, v) :: alPop t key

/-- Result of one locked `emit_agent_message` invocation: the full call
history (the given previous calls plus this invocation's calls), the
new state, and whether the Case-2 split loop ran to completion within
the given fuel (Python's `while` has no fuel bound; `completed =
false` marks a run the model cut short). -/
structure EmitResult where
  calls : List PCall
  state : ConsState
  completed : Bool
deriving DecidableEq

/-- Case 2 of the consolidation algorithm
(src/core/controller.py:559-607): while the buffer exceeds the byte
ceiling, split off a `SPLIT_THRESHOLD`-sized prefix with a continuation
marker, send or edit it, and continue with the remainder; on a failed
send/edit, stop splitting (`break`). -/
def splitLoop (oracle : Oracle) (key : PyStr) :
    Nat → ConsState → PyStr → Option PyStr → List PCall →
      ConsState × PyStr × Option PyStr × List PCall × Bool
  | 0, st, updated, mid, trace =>
    (st, updated, mid, trace, decide (byteLen updated ≤ consolidatedMaxBytes))
  | fuel + 1, st, updated, mid, trace =>
    if byteLen updated ≤ consolidatedMaxBytes then (st, updated, mid, trace, true)
    else
      let target_bytes := consolidatedSplitThreshold - byteLen continuationNotice
      let first_part :=
        pyRstripChar '…' (truncateConsolidated updated target_bytes) ++
          continuationNotice
      let c :=
        match mid with
        | some m => PCall.edit m first_part
        | none => PCall.send first_part
      match oracle (trace ++ [c]) with
      | CallResult.exn => (st, updated, mid, trace ++ [c], true)
      | CallResult.success _ _ =>
        splitLoop oracle key fuel
          { st with
              consolidated_message_ids := alPop st.consolidated_message_ids key }
          (updated.drop (first_part.length - continuationNotice.length)) none
          (trace ++ [c])

/-- The final send of a new consolidated message
(src/core/controller.py:627-633): record the returned id on success,
log and keep going on failure. -/
def emitSendNew (oracle : Oracle) (key : PyStr) (st : ConsState)
    (textFinal : PyStr) (trace : List PCall) (completed : Bool) :
    EmitResult :=
  let c := PCall.send textFinal
  match oracle (trace ++ [c]) with
  | CallResult.success newId _ =>
    ⟨trace ++ [c],
     { st with
         consolidated_message_ids :=
           alSet st.consolidated_message_ids key newId },
     completed⟩
  | CallResult.exn => ⟨trace ++ [c], st, completed⟩

/-- The consolidation path of `emit_agent_message`
(src/core/controller.py:514-633), executed under the per-key lock:
join the stripped chunk onto the buffer, Case 1 (proactive split of a
tracked message past the threshold, edit failure swallowed), Case 2
(the split loop), the final safety-net truncation and buffer store,
then edit the tracked message (clearing it on failure) or send a new
one. -/
def emitLog (oracle : Oracle) (fuel : Nat) (st : ConsState)
    (ctx : MsgContext) (text : PyStr) (prevCalls : List PCall) :
    EmitResult :=
  let key := getConsolidatedMessageKey ctx
  let chunk := pyStrip text
  let existing := (alGet st.consolidated_message_buffers key).getD []
  let updated :=
    if existing ≠ [] then existing ++ consolidatedSeparator ++ chunk
    else chunk
  let c1 : ConsState × PyStr × Option PyStr × List PCall :=
    match alGet st.consolidated_message_ids key with
    | some m =>
      if consolidatedSplitThreshold < byteLen updated then
        ({ st with
            consolidated_message_buffers :=
              alSet st.consolidated_message_buffers key chunk,
            consolidated_message_ids := alPop st.consolidated_message_ids key },
         chunk, none,
         prevCalls ++
           [PCall.edit m
             (truncateConsolidated (existing ++ continuationNotice)
               consolidatedMaxBytes)])
      else (st, updated, some m, prevCalls)
    | none => (st, updated, none, prevCalls)
  match c1 with
  | (st1, updated1, mid1, trace1) =>
    match splitLoop oracle key fuel st1 updated1 mid1 trace1 with
    | (st2, updated2, mid2, trace2, completed) =>
      let updated3 := truncateConsolidated updated2 consolidatedMaxBytes
      let st3 :=
        { st2 with
            consolidated_message_buffers :=
              alSet st2.consolidated_message_buffers key updated3 }
      match mid2 with
      | some m =>
        match oracle (trace2 ++ [PCall.edit m updated3]) with
        | CallResult.success _ true =>
          ⟨trace2 ++ [PCall.edit m updated3], st3, completed⟩
        | _ =>
          emitSendNew oracle key
            { st3 with
                consolidated_message_ids :=
                  alPop st3.consolidated_message_ids key }
            updated3 (trace2 ++ [PCall.edit m updated3]) completed
      | none => emitSendNew oracle key st3 updated3 trace2 completed

/-- The apology sent when the result attachment upload fails
(src/core/controller.py:491-495). -/
def uploadApology : PyStr :=
  "无法上传附件（缺少 files:write 权限或上传失败）。需要我改成分条发送吗？".data

/-- `Controller.emit_agent_message` (src/core/controller.py:434-633):
the empty-text guard, the notify and result branches, the hidden-type
check, and the consolidation path. -/
def emit_agent_message (env : Env) (oracle : Oracle) (fuel : Nat)
    (st : ConsState) (ctx : MsgContext) (message_type : PyStr)
    (text : PyStr) (prevCalls : List PCall) : EmitResult :=
  if pyStrip text = [] then ⟨prevCalls, st, true⟩
  else
    let canonical_type := canonicalizeMessageType message_type
    if canonical_type = "notify".data then
      ⟨prevCalls ++ [PCall.send text], st, true⟩
    else if canonical_type = "result".data then
      let trace1 :=
        if text.length ≤ resultMaxChars then prevCalls ++ [PCall.send text]
        else
          let t :=
            prevCalls ++ [PCall.send (buildResultSummary text resultMaxChars)]
          if env.hasUploadCapability then
            match oracle (t ++ [PCall.upload text]) with
            | CallResult.success _ _ => t ++ [PCall.upload text]
            | CallResult.exn =>
              t ++ [PCall.upload text] ++ [PCall.send uploadApology]
          else t
      match env.diffGistNotification st.diff_snapshots with
      | (ncalls, snaps) =>
        ⟨trace1 ++ ncalls, { st with diff_snapshots := snaps }, true⟩
    else
      let canonical2 :=
        if canonical_type = "system".data ∨
            canonical_type = "assistant".data ∨
            canonical_type = "toolcall".data then canonical_type
        else "assistant".data
      if env.isMessageTypeHidden (getSettingsKey ctx) canonical2 then
        ⟨prevCalls, st, true⟩
      else emitLog oracle fuel st ctx text prevCalls

/-- A sequence of `emit_agent_message` invocations for a fixed context:
fragments of one conversation round fed to the consolidation engine in
order. -/
def processFragments (env : Env) (oracle : Oracle) (fuel : Nat)
    (ctx : MsgContext) :
    List (PyStr × PyStr) → ConsState → List PCall → EmitResult
  | [], st, trace => ⟨trace, st, true⟩
  | (mt, text) :: rest, st, trace =>
    match emit_agent_message env oracle fuel st ctx mt text trace with
    | r =>
      match processFragments env oracle fuel ctx rest r.state r.calls with
      | r2 => ⟨r2.calls, r2.state, r.completed && r2.completed⟩

/-- The canonical log kind the hidden-type check receives
(src/core/controller.py:501-504). -/
def canonicalLogKind (message_type : PyStr) : PyStr :=
  if canonicalizeMessageType message_type = "system".data ∨
      canonicalizeMessageType message_type = "assistant".data ∨
      canonicalizeMessageType message_type = "toolcall".data then
    canonicalizeMessageType message_type
  else "assistant".data

/-- Shared concrete objects for the controller witnesses. -/
def okOracle : Oracle := fun _ => CallResult.success ("m1".data) true

def downOracle : Oracle := fun _ => CallResult.exn

def ctxW : MsgContext := ⟨"u".data, "C".data, some ("T".data), some ("M".data)⟩

def envW : Env := ⟨fun _ _ => false, false, fun s => ([], s)⟩

def envHideAll : Env := ⟨fun _ _ => true, false, fun s => ([], s)⟩

def stEmpty : ConsState := ⟨[], [], []⟩

/-- C10: for every context and message type, empty or whitespace-only
text returns immediately: no platform adapter call and no change to
any consolidated buffer, tracked message id, or snapshot state. -/
theorem claim_C10_blank_text_is_noop :
    ∀ (env : Env) (oracle : Oracle) (fuel : Nat) (st : ConsState)
      (ctx : MsgContext) (message_type text : PyStr),
      pyStrip text = [] →
      emit_agent_message env oracle fuel st ctx message_type text [] =
        ⟨[], st, true⟩ := by
  intro env oracle fuel st ctx message_type text h
  unfold emit_agent_message
  rw [if_pos h]

/-- C10 witness: whitespace-only text at a concrete input. -/
theorem claim_C10_witness :
    emit_agent_message envW okOracle 5 stEmpty ctxW ("assistant".data)
        (" \n\t ".data) [] = ⟨[], stEmpty, true⟩ :=
  claim_C10_blank_text_is_noop envW okOracle 5 stEmpty ctxW
    ("assistant".data) (" \n\t ".data) (by decide)

/-- C7: a log fragment whose canonical kind is hidden for its settings
key produces zero platform-adapter calls and leaves the state (every
buffer, tracked id and snapshot) unchanged. -/
theorem claim_C7_hidden_type_suppression :
    ∀ (env : Env) (oracle : Oracle) (fuel : Nat) (st : ConsState)
      (ctx : MsgContext) (message_type text : PyStr),
      canonicalizeMessageType message_type ≠ "notify".data →
      canonicalizeMessageType message_type ≠ "result".data →
      env.isMessageTypeHidden (getSettingsKey ctx)
        (canonicalLogKind message_type) = true →
      emit_agent_message env oracle fuel st ctx message_type text [] =
        ⟨[], st, true⟩ := by
  intro env oracle fuel st ctx message_type text h1 h2 hhid
  unfold emit_agent_message
  by_cases hs : pyStrip text = []
  · rw [if_pos hs]
  · rw [if_neg hs]
    dsimp only
    rw [if_neg h1, if_neg h2]
    unfold canonicalLogKind at hhid
    rw [if_pos hhid]

/-- C7 witness: a hidden `toolcall` fragment at a concrete input makes
no call and leaves the state unchanged. -/
theorem claim_C7_witness :
    emit_agent_message envHideAll okOracle 5 stEmpty ctxW
        ("toolcall".data) ("hello".data) [] = ⟨[], stEmpty, true⟩ :=
  claim_C7_hidden_type_suppression envHideAll okOracle 5 stEmpty ctxW
    ("toolcall".data) ("hello".data) (by decide) (by decide) (by decide)

/-! ### More dictionary lemmas, for the controller state -/

theorem alGet_alSet_self {α : Type} (l : List (PyStr × α)) (k : PyStr)
    (v : α) : alGet (alSet l k v) k = some v := by
  induction l with
  | nil => simp [alSet, alGet]
  | cons hd t ih =>
    obtain ⟨k', v'⟩ := hd
    by_cases hk : k' = k
    · simp [alSet, alGet, hk]
    · simp [alSet, alGet, hk, ih]

theorem alPop_keysNodup {α : Type} (l : List (PyStr × α)) (k : PyStr)
    (h : keysNodup l) : keysNodup (alPop l k) := by
  induction l with
  | nil => simpa [alPop] using h
  | cons hd t ih =>
    obtain ⟨k', v'⟩ := hd
    unfold keysNodup at h ⊢
    simp only [List.map_cons, List.nodup_cons] at h
    by_cases hk : k' = k
    · rw [alPop, if_pos hk]
      exact h.2
    · rw [alPop, if_neg hk]
      simp only [List.map_cons, List.nodup_cons]
      refine ⟨?_, ih h.2⟩
      intro hmem
      have hsub : ∀ x, x ∈ (alPop t k).map Prod.fst → x ∈ t.map Prod.fst := by
        clear h ih hmem
        induction t with
        | nil => intro x hx; simpa [alPop] using hx
        | cons hd2 t2 ih2 =>
          obtain ⟨k2, v2⟩ := hd2
          intro x hx
          by_cases hk2 : k2 = k
          · rw [alPop, if_pos hk2] at hx
            exact List.mem_cons_of_mem _ hx
          · rw [alPop, if_neg hk2] at hx
            simp only [List.map_cons, List.mem_cons] at hx ⊢
            rcases hx with hx | hx
            · exact Or.inl hx
            · exact Or.inr (ih2 x hx)
      exact h.1 (hsub k' hmem)

theorem alGet_alPop_self {α : Type} (l : List (PyStr × α)) (k : PyStr)
    (h : keysNodup l) : alGet (alPop l k) k = none := by
  induction l with
  | nil => simp [alPop, alGet]
  | cons hd t ih =>
    obtain ⟨k', v'⟩ := hd
    unfold keysNodup at h
    simp only [List.map_cons, List.nodup_cons] at h
    by_cases hk : k' = k
    · rw [alPop, if_pos hk]
      subst hk
      rcases hg : alGet t k' with _ | v
      · rfl
      · exact absurd (List.mem_map.mpr ⟨(k', v), alGet_mem t k' v hg, rfl⟩) h.1
    · rw [alPop, if_neg hk, alGet, if_neg hk]
      exact ih h.2

/-! ### The split loop under a failing adapter -/

theorem splitLoop_allfail (oracle : Oracle) (key : PyStr)
    (horacle : ∀ h, oracle h = CallResult.exn) (fuel : Nat)
    (st : ConsState) (u : PyStr) (mid : Option PyStr)
    (trace : List PCall) :
    (splitLoop oracle key fuel st u mid trace).1 = st ∧
    (splitLoop oracle key fuel st u mid trace).2.1 = u ∧
    (splitLoop oracle key fuel st u mid trace).2.2.1 = mid := by
  cases fuel with
  | zero => exact ⟨rfl, rfl, rfl⟩
  | succ n =>
    rw [splitLoop]
    split
    · exact ⟨rfl, rfl, rfl⟩
    · dsimp only
      rw [horacle]
      exact ⟨rfl, rfl, rfl⟩

theorem splitLoop_mid_cases (oracle : Oracle) (key : PyStr) :
    ∀ (fuel : Nat) (st : ConsState) (u : PyStr) (mid : Option PyStr)
      (trace : List PCall),
      (splitLoop oracle key fuel st u mid trace).2.2.1 = none ∨
      (splitLoop oracle key fuel st u mid trace).2.2.1 = mid := by
  intro fuel
  induction fuel with
  | zero => intro st u mid trace; exact Or.inr rfl
  | succ n ih =>
    intro st u mid trace
    rw [splitLoop]
    split
    · exact Or.inr rfl
    · dsimp only
      split
      · exact Or.inr rfl
      · rcases ih _ _ none _ with h | h
        · exact Or.inl h
        · exact Or.inl h

theorem splitLoop_edit_targets (oracle : Oracle) (key : PyStr) :
    ∀ (fuel : Nat) (st : ConsState) (u : PyStr) (mid : Option PyStr)
      (trace : List PCall) (m t : PyStr),
      PCall.edit m t ∈ (splitLoop oracle key fuel st u mid trace).2.2.2.1 →
      PCall.edit m t ∈ trace ∨ mid = some m := by
  intro fuel
  induction fuel with
  | zero => intro st u mid trace m t h; exact Or.inl h
  | succ n ih =>
    intro st u mid trace m t h
    rw [splitLoop] at h
    split at h
    · exact Or.inl h
    · dsimp only at h
      split at h
      · rcases List.mem_append.mp h with h' | h'
        · exact Or.inl h'
        · simp only [List.mem_singleton] at h'
          cases mid with
          | none => exact absurd h' (by simp)
          | some m' =>
            simp only at h'
            injection h' with h1 h2
            exact Or.inr (by rw [h1])
      · rcases ih _ _ none _ m t h with h' | h'
        · rcases List.mem_append.mp h' with h'' | h''
          · exact Or.inl h''
          · simp only [List.mem_singleton] at h''
            cases mid with
            | none => exact absurd h'' (by simp)
            | some m' =>
              simp only at h''
              injection h'' with h1 h2
              exact Or.inr (by rw [h1])
        · exact absurd h' (by simp)

/-- The buffer content the algorithm joins for an incoming chunk
(src/core/controller.py:521-525). -/
def joinedChunk (st : ConsState) (key chunk : PyStr) : PyStr :=
  if (alGet st.consolidated_message_buffers key).getD [] ≠ [] then
    (alGet st.consolidated_message_buffers key).getD [] ++
      consolidatedSeparator ++ chunk
  else chunk

/-- The buffer content carried past Case 1: the bare chunk when the
proactive split fires, the joined content otherwise. -/
def keptChunk (st : ConsState) (key chunk : PyStr) : PyStr :=
  match alGet st.consolidated_message_ids key with
  | some _ =>
    if consolidatedSplitThreshold < byteLen (joinedChunk st key chunk) then
      chunk
    else joinedChunk st key chunk
  | none => joinedChunk st key chunk

theorem emitSendNew_mem (oracle : Oracle) (key : PyStr) (st : ConsState)
    (tf : PyStr) (trace : List PCall) (compl : Bool) (c : PCall)
    (h : c ∈ (emitSendNew oracle key st tf trace compl).calls) :
    c ∈ trace ∨ c = PCall.send tf := by
  unfold emitSendNew at h
  dsimp only at h
  rcases ho : oracle (trace ++ [PCall.send tf]) with ⟨i, b⟩ | _ <;>
    rw [ho] at h <;> dsimp only at h <;>
    rcases List.mem_append.mp h with h' | h'
  · exact Or.inl h'
  · exact Or.inr (List.mem_singleton.mp h')
  · exact Or.inl h'
  · exact Or.inr (List.mem_singleton.mp h')

/-- Every `edit_message` call issued by the consolidation path targets
the remote-message id that was tracked for the key on entry. -/
theorem emitLog_edit_targets (oracle' : Oracle) (fuel : Nat)
    (st : ConsState) (ctx : MsgContext) (text : PyStr) (m t : PyStr)
    (hmem : PCall.edit m t ∈ (emitLog oracle' fuel st ctx text []).calls) :
    alGet st.consolidated_message_ids (getConsolidatedMessageKey ctx) =
      some m := by
  unfold emitLog at hmem
  dsimp only at hmem
  rcases hmid : alGet st.consolidated_message_ids
      (getConsolidatedMessageKey ctx) with _ | m0 <;>
    rw [hmid] at hmem <;> dsimp only at hmem
  · generalize hu : (if (alGet st.consolidated_message_buffers
          (getConsolidatedMessageKey ctx)).getD [] ≠ [] then
        (alGet st.consolidated_message_buffers
            (getConsolidatedMessageKey ctx)).getD [] ++
          consolidatedSeparator ++ pyStrip text
      else pyStrip text) = u0 at hmem
    rcases hsl : splitLoop oracle' (getConsolidatedMessageKey ctx) fuel st u0
        none [] with ⟨st2, u2, mid2, tr2, comp⟩
    rw [hsl] at hmem
    dsimp only at hmem
    have hc := splitLoop_mid_cases oracle' (getConsolidatedMessageKey ctx)
      fuel st u0 none []
    rw [hsl] at hc
    dsimp only at hc
    have hm2 : mid2 = none := by rcases hc with h | h <;> exact h
    subst hm2
    dsimp only at hmem
    rcases emitSendNew_mem _ _ _ _ _ _ _ hmem with h' | h'
    · have h2 := splitLoop_edit_targets oracle' (getConsolidatedMessageKey ctx)
        fuel st u0 none [] m t (by rw [hsl]; exact h')
      rcases h2 with h | h
      · exact absurd h (by simp)
      · exact absurd h (by simp)
    · exact absurd h' (by simp)
  · by_cases hthr : consolidatedSplitThreshold <
        byteLen (if (alGet st.consolidated_message_buffers
              (getConsolidatedMessageKey ctx)).getD [] ≠ [] then
          (alGet st.consolidated_message_buffers
              (getConsolidatedMessageKey ctx)).getD [] ++
            consolidatedSeparator ++ pyStrip text
        else pyStrip text)
    · rw [if_pos hthr] at hmem
      dsimp only [List.nil_append] at hmem
      generalize holdc : PCall.edit m0 (truncateConsolidated
          ((alGet st.consolidated_message_buffers
              (getConsolidatedMessageKey ctx)).getD [] ++ continuationNotice)
          consolidatedMaxBytes) = c0 at hmem
      generalize hstA : ConsState.mk
          (alPop st.consolidated_message_ids (getConsolidatedMessageKey ctx))
          (alSet st.consolidated_message_buffers
            (getConsolidatedMessageKey ctx) (pyStrip text))
          st.diff_snapshots = stA at hmem
      rcases hsl : splitLoop oracle' (getConsolidatedMessageKey ctx) fuel stA
          (pyStrip text) none [c0] with ⟨st2, u2, mid2, tr2, comp⟩
      rw [hsl] at hmem
      dsimp only at hmem
      have hc := splitLoop_mid_cases oracle' (getConsolidatedMessageKey ctx)
        fuel stA (pyStrip text) none [c0]
      rw [hsl] at hc
      dsimp only at hc
      have hm2 : mid2 = none := by rcases hc with h | h <;> exact h
      subst hm2
      dsimp only at hmem
      rcases emitSendNew_mem _ _ _ _ _ _ _ hmem with h' | h'
      · have h2 := splitLoop_edit_targets oracle'
          (getConsolidatedMessageKey ctx) fuel stA (pyStrip text) none [c0]
          m t (by rw [hsl]; exact h')
        rcases h2 with h | h
        · have h3 := List.mem_singleton.mp h
          rw [← holdc] at h3
          injection h3 with h4 h5
          rw [h4]
        · exact absurd h (by simp)
      · exact absurd h' (by simp)
    · rw [if_neg hthr] at hmem
      dsimp only at hmem
      generalize hu : (if (alGet st.consolidated_message_buffers
            (getConsolidatedMessageKey ctx)).getD [] ≠ [] then
          (alGet st.consolidated_message_buffers
              (getConsolidatedMessageKey ctx)).getD [] ++
            consolidatedSeparator ++ pyStrip text
        else pyStrip text) = u0 at hmem
      rcases hsl : splitLoop oracle' (getConsolidatedMessageKey ctx) fuel st u0
          (some m0) [] with ⟨st2, u2, mid2, tr2, comp⟩
      rw [hsl] at hmem
      dsimp only at hmem
      have hc := splitLoop_mid_cases oracle' (getConsolidatedMessageKey ctx)
        fuel st u0 (some m0) []
      rw [hsl] at hc
      dsimp only at hc
      have hloop : PCall.edit m t ∈ tr2 →
          alGet st.consolidated_message_ids (getConsolidatedMessageKey ctx) =
            some m := by
        intro h'
        have h2 := splitLoop_edit_targets oracle'
          (getConsolidatedMessageKey ctx) fuel st u0 (some m0) [] m t
          (by rw [hsl]; exact h')
        rcases h2 with h | h
        · exact absurd h (by simp)
        · injection h with h4
          rw [← h4]
          exact hmid
      rcases hc with hm2 | hm2 <;> subst hm2 <;> dsimp only at hmem
      · rcases emitSendNew_mem _ _ _ _ _ _ _ hmem with h' | h'
        · rw [← hmid]
          exact hloop h'
        · exact absurd h' (by simp)
      · rcases ho : oracle' (tr2 ++
            [PCall.edit m0 (truncateConsolidated u2 consolidatedMaxBytes)])
            with ⟨i, b⟩ | _ <;> rw [ho] at hmem
        · cases b with
          | false =>
            dsimp only at hmem
            rcases emitSendNew_mem _ _ _ _ _ _ _ hmem with h' | h'
            · rcases List.mem_append.mp h' with h'' | h''
              · rw [← hmid]
                exact hloop h''
              · have h3 := List.mem_singleton.mp h''
                injection h3 with h4 h5
                rw [h4]
            · exact absurd h' (by simp)
          | true =>
            dsimp only at hmem
            rcases List.mem_append.mp hmem with h' | h'
            · rw [← hmid]
              exact hloop h'
            · have h3 := List.mem_singleton.mp h'
              injection h3 with h4 h5
              rw [h4]
        · dsimp only at hmem
          rcases emitSendNew_mem _ _ _ _ _ _ _ hmem with h' | h'
          · rcases List.mem_append.mp h' with h'' | h''
            · rw [← hmid]
              exact hloop h''
            · have h3 := List.mem_singleton.mp h''
              injection h3 with h4 h5
              rw [h4]
          · exact absurd h' (by simp)

/-- C5: when every platform call fails during the consolidation path,
the round's buffer is not discarded — the stored buffer for the key
still holds the (truncated) joined content; the tracked remote-message
id is cleared; a new message send is the last call attempted; and (for
any adapter behaviour) every edit issued targets only the id that was
tracked for the key on entry, so a cleared id is never edited again. -/
theorem claim_C5_failure_keeps_buffer_clears_id :
    ∀ (oracle : Oracle) (fuel : Nat) (st : ConsState) (ctx : MsgContext)
      (text : PyStr),
      (∀ h, oracle h = CallResult.exn) →
      keysNodup st.consolidated_message_ids →
      (alGet (emitLog oracle fuel st ctx text
            []).state.consolidated_message_buffers
          (getConsolidatedMessageKey ctx) =
        some (truncateConsolidated
          (keptChunk st (getConsolidatedMessageKey ctx) (pyStrip text))
          consolidatedMaxBytes)) ∧
      (alGet (emitLog oracle fuel st ctx text
            []).state.consolidated_message_ids
          (getConsolidatedMessageKey ctx) = none) ∧
      (∃ t, ((emitLog oracle fuel st ctx text []).calls).getLast? =
        some (PCall.send t)) ∧
      (∀ (oracle' : Oracle) (m t : PyStr),
        PCall.edit m t ∈ (emitLog oracle' fuel st ctx text []).calls →
        alGet st.consolidated_message_ids (getConsolidatedMessageKey ctx) =
          some m) := by
  intro oracle fuel st ctx text horacle hnd
  have hmain : ∀ (oracle₀ : Oracle), (∀ h, oracle₀ h = CallResult.exn) →
      (alGet (emitLog oracle₀ fuel st ctx text
            []).state.consolidated_message_buffers
          (getConsolidatedMessageKey ctx) =
        some (truncateConsolidated
          (keptChunk st (getConsolidatedMessageKey ctx) (pyStrip text))
          consolidatedMaxBytes)) ∧
      (alGet (emitLog oracle₀ fuel st ctx text
            []).state.consolidated_message_ids
          (getConsolidatedMessageKey ctx) = none) ∧
      (∃ t, ((emitLog oracle₀ fuel st ctx text []).calls).getLast? =
        some (PCall.send t)) := by
    intro oracle₀ ho
    unfold emitLog keptChunk joinedChunk
    dsimp only
    rcases hmid : alGet st.consolidated_message_ids
        (getConsolidatedMessageKey ctx) with _ | m
    · dsimp only
      rcases hsl : splitLoop oracle₀ (getConsolidatedMessageKey ctx) fuel st
          (if (alGet st.consolidated_message_buffers
                (getConsolidatedMessageKey ctx)).getD [] ≠ [] then
            (alGet st.consolidated_message_buffers
                (getConsolidatedMessageKey ctx)).getD [] ++
              consolidatedSeparator ++ pyStrip text
          else pyStrip text) none [] with ⟨st2, u2, mid2, tr2, comp⟩
      obtain ⟨e1, e2, e3⟩ := splitLoop_allfail oracle₀ _ ho fuel st _ none []
      rw [hsl] at e1 e2 e3
      dsimp only at e1 e2 e3
      subst e1; subst e2; subst e3
      dsimp only
      unfold emitSendNew
      dsimp only
      rw [ho]
      dsimp only
      refine ⟨?_, ?_, ?_⟩
      · exact alGet_alSet_self _ _ _
      · exact hmid
      · exact ⟨_, List.getLast?_concat _⟩
    · dsimp only
      by_cases hthr : consolidatedSplitThreshold <
          byteLen (if (alGet st.consolidated_message_buffers
                (getConsolidatedMessageKey ctx)).getD [] ≠ [] then
            (alGet st.consolidated_message_buffers
                (getConsolidatedMessageKey ctx)).getD [] ++
              consolidatedSeparator ++ pyStrip text
          else pyStrip text)
      · simp only [if_pos hthr]
        rcases hsl : splitLoop oracle₀ (getConsolidatedMessageKey ctx) fuel
            { st with
                consolidated_message_buffers :=
                  alSet st.consolidated_message_buffers
                    (getConsolidatedMessageKey ctx) (pyStrip text),
                consolidated_message_ids :=
                  alPop st.consolidated_message_ids
                    (getConsolidatedMessageKey ctx) }
            (pyStrip text) none _ with ⟨st2, u2, mid2, tr2, comp⟩
        obtain ⟨e1, e2, e3⟩ := splitLoop_allfail oracle₀ _ ho fuel _ _ none _
        rw [hsl] at e1 e2 e3
        dsimp only at e1 e2 e3
        subst e1; subst e2; subst e3
        dsimp only
        unfold emitSendNew
        dsimp only
        rw [ho]
        dsimp only
        refine ⟨?_, ?_, ?_⟩
        · exact alGet_alSet_self _ _ _
        · exact alGet_alPop_self _ _ hnd
        · exact ⟨_, List.getLast?_concat _⟩
      · simp only [if_neg hthr]
        rcases hsl : splitLoop oracle₀ (getConsolidatedMessageKey ctx) fuel st
            (if (alGet st.consolidated_message_buffers
                  (getConsolidatedMessageKey ctx)).getD [] ≠ [] then
              (alGet st.consolidated_message_buffers
                  (getConsolidatedMessageKey ctx)).getD [] ++
                consolidatedSeparator ++ pyStrip text
            else pyStrip text) (some m) [] with ⟨st2, u2, mid2, tr2, comp⟩
        obtain ⟨e1, e2, e3⟩ := splitLoop_allfail oracle₀ _ ho fuel st _ (some m) []
        rw [hsl] at e1 e2 e3
        dsimp only at e1 e2 e3
        subst e1; subst e2; subst e3
        dsimp only
        rw [ho]
        dsimp only
        unfold emitSendNew
        dsimp only
        rw [ho]
        dsimp only
        refine ⟨?_, ?_, ?_⟩
        · exact alGet_alSet_self _ _ _
        · exact alGet_alPop_self _ _ hnd
        · exact ⟨_, List.getLast?_concat _⟩
  obtain ⟨hb, hi, hl⟩ := hmain oracle horacle
  exact ⟨hb, hi, hl, fun oracle' m t hmem =>
    emitLog_edit_targets oracle' fuel st ctx text m t hmem⟩

def stC5 : ConsState :=
  ⟨[("C:T:M".data, "old".data)], [("C:T:M".data, "prev".data)], []⟩

/-- C5 witness: with a tracked message, a stored buffer and an
all-failing adapter at a concrete input, the tracked id is cleared and
the buffer still holds the truncated joined content. -/
theorem claim_C5_witness :
    alGet (emitLog downOracle 5 stC5 ctxW ("hi".data)
        []).state.consolidated_message_ids
      (getConsolidatedMessageKey ctxW) = none ∧
    alGet (emitLog downOracle 5 stC5 ctxW ("hi".data)
        []).state.consolidated_message_buffers
      (getConsolidatedMessageKey ctxW) =
      some (truncateConsolidated
        (keptChunk stC5 (getConsolidatedMessageKey ctxW)
          (pyStrip ("hi".data))) consolidatedMaxBytes) :=
  ⟨(claim_C5_failure_keeps_buffer_clears_id downOracle 5 stC5 ctxW
      ("hi".data) (fun _ => rfl) (by decide)).2.1,
   (claim_C5_failure_keeps_buffer_clears_id downOracle 5 stC5 ctxW
      ("hi".data) (fun _ => rfl) (by decide)).1⟩

/-! ### C1: the byte-budget invariant -/

/-- The byte budget for one platform call: every text handed to
`send_message` or `edit_message` fits in `MAX_BYTES`. -/
def callWithinLimit (c : PCall) : Prop :=
  match c with
  | PCall.send t => byteLen t ≤ consolidatedMaxBytes
  | PCall.edit _ t => byteLen t ≤ consolidatedMaxBytes
  | PCall.upload _ => True

instance (c : PCall) : Decidable (callWithinLimit c) := by
  cases c <;> (unfold callWithinLimit; infer_instance)

theorem pyRstripChar_append_self (ch : Char) (s : PyStr) :
    pyRstripChar ch (s ++ [ch]) = pyRstripChar ch s := by
  unfold pyRstripChar
  rw [List.reverse_append]
  simp [List.dropWhile_cons]

/-- The chunk sent by one split-loop iteration fits in the byte
ceiling: at most `SPLIT_THRESHOLD` bytes of content plus the
continuation marker. -/
theorem splitLoop_first_part_le (u : PyStr)
    (h : consolidatedMaxBytes < byteLen u) :
    byteLen (pyRstripChar '…' (truncateConsolidated u
        (consolidatedSplitThreshold - byteLen continuationNotice)) ++
      continuationNotice) ≤ consolidatedMaxBytes := by
  have hc : byteLen continuationNotice = 29 := by decide
  have htarget : consolidatedSplitThreshold - byteLen continuationNotice =
      3571 := by decide
  rw [htarget]
  rw [truncateConsolidated_of_gt u 3571
    (by unfold consolidatedMaxBytes at h; omega) (by norm_num)]
  rw [pyRstripChar_append_self]
  have h1 := byteLen_pyRstripChar_le '…'
    (pyRstrip (utf8TakeBytes (3571 - 3) u))
  have h2 := byteLen_pyRstrip_le (utf8TakeBytes (3571 - 3) u)
  have h3 := utf8TakeBytes_byteLen_le (3571 - 3) u
  rw [byteLen_append, hc]
  unfold consolidatedMaxBytes
  omega

theorem splitLoop_calls_bounded (oracle : Oracle) (key : PyStr) :
    ∀ (fuel : Nat) (st : ConsState) (u : PyStr) (mid : Option PyStr)
      (trace : List PCall),
      (∀ c ∈ trace, callWithinLimit c) →
      ∀ c ∈ (splitLoop oracle key fuel st u mid trace).2.2.2.1,
        callWithinLimit c := by
  intro fuel
  induction fuel with
  | zero => intro st u mid trace htr c hc; exact htr c hc
  | succ n ih =>
    intro st u mid trace htr c hc
    rw [splitLoop] at hc
    split at hc
    · exact htr c hc
    · rename_i hgt
      rw [not_le] at hgt
      dsimp only at hc
      have hfp := splitLoop_first_part_le u hgt
      have htr2 : ∀ c' ∈ trace ++
          [match mid with
           | some m => PCall.edit m (pyRstripChar '…'
               (truncateConsolidated u (consolidatedSplitThreshold -
                 byteLen continuationNotice)) ++ continuationNotice)
           | none => PCall.send (pyRstripChar '…'
               (truncateConsolidated u (consolidatedSplitThreshold -
                 byteLen continuationNotice)) ++ continuationNotice)],
          callWithinLimit c' := by
        intro c' hc'
        rcases List.mem_append.mp hc' with h' | h'
        · exact htr c' h'
        · have h'' := List.mem_singleton.mp h'
          subst h''
          cases mid <;> exact hfp
      split at hc
      · exact htr2 c hc
      · exact ih _ _ none _ htr2 c hc

theorem emitSendNew_calls_bounded (oracle : Oracle) (key : PyStr)
    (st : ConsState) (tf : PyStr) (trace : List PCall) (compl : Bool)
    (htr : ∀ c ∈ trace, callWithinLimit c)
    (htf : byteLen tf ≤ consolidatedMaxBytes) :
    ∀ c ∈ (emitSendNew oracle key st tf trace compl).calls,
      callWithinLimit c := by
  intro c hc
  rcases emitSendNew_mem _ _ _ _ _ _ _ hc with h | h
  · exact htr c h
  · subst h
    exact htf

theorem splitLoop_ids_nodup (oracle : Oracle) (key : PyStr) :
    ∀ (fuel : Nat) (st : ConsState) (u : PyStr) (mid : Option PyStr)
      (trace : List PCall),
      keysNodup st.consolidated_message_ids →
      keysNodup
        (splitLoop oracle key fuel st u mid
          trace).1.consolidated_message_ids := by
  intro fuel
  induction fuel with
  | zero => intro st u mid trace h; exact h
  | succ n ih =>
    intro st u mid trace h
    rw [splitLoop]
    split
    · exact h
    · dsimp only
      split
      · exact h
      · exact ih _ _ none _ (alPop_keysNodup _ _ h)

theorem emitSendNew_ids_nodup (oracle : Oracle) (key : PyStr)
    (st : ConsState) (tf : PyStr) (trace : List PCall) (compl : Bool)
    (h : keysNodup st.consolidated_message_ids) :
    keysNodup
      (emitSendNew oracle key st tf trace
        compl).state.consolidated_message_ids := by
  unfold emitSendNew
  dsimp only
  rcases ho : oracle (trace ++ [PCall.send tf]) with ⟨i, b⟩ | _ <;>
    dsimp only
  · exact alSet_keysNodup _ _ _ h
  · exact h

theorem emitLog_calls_bounded (oracle : Oracle) (fuel : Nat)
    (st : ConsState) (ctx : MsgContext) (text : PyStr)
    (prev : List PCall) (hprev : ∀ c ∈ prev, callWithinLimit c) :
    ∀ c ∈ (emitLog oracle fuel st ctx text prev).calls,
      callWithinLimit c := by
  unfold emitLog
  dsimp only
  rcases hmid : alGet st.consolidated_message_ids
      (getConsolidatedMessageKey ctx) with _ | m0 <;> dsimp only
  · generalize (if (alGet st.consolidated_message_buffers
          (getConsolidatedMessageKey ctx)).getD [] ≠ [] then
        (alGet st.consolidated_message_buffers
            (getConsolidatedMessageKey ctx)).getD [] ++
          consolidatedSeparator ++ pyStrip text
      else pyStrip text) = u0
    rcases hsl : splitLoop oracle (getConsolidatedMessageKey ctx) fuel st u0
        none prev with ⟨st2, u2, mid2, tr2, comp⟩
    dsimp only
    have htr2 : ∀ c ∈ tr2, callWithinLimit c := by
      have hb := splitLoop_calls_bounded oracle (getConsolidatedMessageKey ctx)
        fuel st u0 none prev hprev
      rw [hsl] at hb
      exact hb
    have hm2 : mid2 = none := by
      have hc := splitLoop_mid_cases oracle (getConsolidatedMessageKey ctx)
        fuel st u0 none prev
      rw [hsl] at hc
      rcases hc with h | h <;> exact h
    subst hm2
    dsimp only
    exact emitSendNew_calls_bounded _ _ _ _ _ _ htr2
      (truncateConsolidated_byteLen_le _ _ (by decide))
  · by_cases hthr : consolidatedSplitThreshold <
        byteLen (if (alGet st.consolidated_message_buffers
              (getConsolidatedMessageKey ctx)).getD [] ≠ [] then
          (alGet st.consolidated_message_buffers
              (getConsolidatedMessageKey ctx)).getD [] ++
            consolidatedSeparator ++ pyStrip text
        else pyStrip text)
    · simp only [if_pos hthr]
      have hc0 : callWithinLimit (PCall.edit m0 (truncateConsolidated
          ((alGet st.consolidated_message_buffers
              (getConsolidatedMessageKey ctx)).getD [] ++ continuationNotice)
          consolidatedMaxBytes)) :=
        truncateConsolidated_byteLen_le _ _ (by decide)
      generalize holdc : PCall.edit m0 (truncateConsolidated
          ((alGet st.consolidated_message_buffers
              (getConsolidatedMessageKey ctx)).getD [] ++ continuationNotice)
          consolidatedMaxBytes) = c0 at hc0 ⊢
      generalize ConsState.mk
          (alPop st.consolidated_message_ids (getConsolidatedMessageKey ctx))
          (alSet st.consolidated_message_buffers
            (getConsolidatedMessageKey ctx) (pyStrip text))
          st.diff_snapshots = stA
      have hprev2 : ∀ c ∈ prev ++ [c0], callWithinLimit c := by
        intro c hc
        rcases List.mem_append.mp hc with h | h
        · exact hprev c h
        · rw [List.mem_singleton.mp h]
          exact hc0
      rcases hsl : splitLoop oracle (getConsolidatedMessageKey ctx) fuel stA
          (pyStrip text) none (prev ++ [c0]) with ⟨st2, u2, mid2, tr2, comp⟩
      dsimp only
      have htr2 : ∀ c ∈ tr2, callWithinLimit c := by
        have hb := splitLoop_calls_bounded oracle
          (getConsolidatedMessageKey ctx) fuel stA (pyStrip text) none
          (prev ++ [c0]) hprev2
        rw [hsl] at hb
        exact hb
      have hm2 : mid2 = none := by
        have hc := splitLoop_mid_cases oracle (getConsolidatedMessageKey ctx)
          fuel stA (pyStrip text) none (prev ++ [c0])
        rw [hsl] at hc
        rcases hc with h | h <;> exact h
      subst hm2
      dsimp only
      exact emitSendNew_calls_bounded _ _ _ _ _ _ htr2
        (truncateConsolidated_byteLen_le _ _ (by decide))
    · simp only [if_neg hthr]
      generalize (if (alGet st.consolidated_message_buffers
            (getConsolidatedMessageKey ctx)).getD [] ≠ [] then
          (alGet st.consolidated_message_buffers
              (getConsolidatedMessageKey ctx)).getD [] ++
            consolidatedSeparator ++ pyStrip text
        else pyStrip text) = u0
      rcases hsl : splitLoop oracle (getConsolidatedMessageKey ctx) fuel st u0
          (some m0) prev with ⟨st2, u2, mid2, tr2, comp⟩
      dsimp only
      have htr2 : ∀ c ∈ tr2, callWithinLimit c := by
        have hb := splitLoop_calls_bounded oracle
          (getConsolidatedMessageKey ctx) fuel st u0 (some m0) prev hprev
        rw [hsl] at hb
        exact hb
      have hedit : callWithinLimit (PCall.edit m0
          (truncateConsolidated u2 consolidatedMaxBytes)) :=
        truncateConsolidated_byteLen_le _ _ (by decide)
      have htr3 : ∀ c ∈ tr2 ++ [PCall.edit m0
          (truncateConsolidated u2 consolidatedMaxBytes)],
          callWithinLimit c := by
        intro c hc
        rcases List.mem_append.mp hc with h | h
        · exact htr2 c h
        · rw [List.mem_singleton.mp h]
          exact hedit
      have hc := splitLoop_mid_cases oracle (getConsolidatedMessageKey ctx)
        fuel st u0 (some m0) prev
      rw [hsl] at hc
      rcases hc with hm2 | hm2 <;> subst hm2 <;> dsimp only
      · exact emitSendNew_calls_bounded _ _ _ _ _ _ htr2
          (truncateConsolidated_byteLen_le _ _ (by decide))
      · rcases ho : oracle (tr2 ++ [PCall.edit m0
            (truncateConsolidated u2 consolidatedMaxBytes)])
            with ⟨i, b⟩ | _
        · cases b with
          | false =>
            dsimp only
            exact emitSendNew_calls_bounded _ _ _ _ _ _ htr3
              (truncateConsolidated_byteLen_le _ _ (by decide))
          | true =>
            dsimp only
            exact htr3
        · dsimp only
          exact emitSendNew_calls_bounded _ _ _ _ _ _ htr3
            (truncateConsolidated_byteLen_le _ _ (by decide))

theorem emitLog_ids_nodup (oracle : Oracle) (fuel : Nat) (st : ConsState)
    (ctx : MsgContext) (text : PyStr) (prev : List PCall)
    (hnd : keysNodup st.consolidated_message_ids) :
    keysNodup (emitLog oracle fuel st ctx text
      prev).state.consolidated_message_ids := by
  unfold emitLog
  dsimp only
  rcases hmid : alGet st.consolidated_message_ids
      (getConsolidatedMessageKey ctx) with _ | m0 <;> dsimp only
  · generalize (if (alGet st.consolidated_message_buffers
          (getConsolidatedMessageKey ctx)).getD [] ≠ [] then
        (alGet st.consolidated_message_buffers
            (getConsolidatedMessageKey ctx)).getD [] ++
          consolidatedSeparator ++ pyStrip text
      else pyStrip text) = u0
    rcases hsl : splitLoop oracle (getConsolidatedMessageKey ctx) fuel st u0
        none prev with ⟨st2, u2, mid2, tr2, comp⟩
    dsimp only
    have hnd2 : keysNodup st2.consolidated_message_ids := by
      have hb := splitLoop_ids_nodup oracle (getConsolidatedMessageKey ctx)
        fuel st u0 none prev hnd
      rw [hsl] at hb
      exact hb
    have hm2 : mid2 = none := by
      have hc := splitLoop_mid_cases oracle (getConsolidatedMessageKey ctx)
        fuel st u0 none prev
      rw [hsl] at hc
      rcases hc with h | h <;> exact h
    subst hm2
    dsimp only
    exact emitSendNew_ids_nodup _ _ _ _ _ _ hnd2
  · by_cases hthr : consolidatedSplitThreshold <
        byteLen (if (alGet st.consolidated_message_buffers
              (getConsolidatedMessageKey ctx)).getD [] ≠ [] then
          (alGet st.consolidated_message_buffers
              (getConsolidatedMessageKey ctx)).getD [] ++
            consolidatedSeparator ++ pyStrip text
        else pyStrip text)
    · simp only [if_pos hthr]
      generalize PCall.edit m0 (truncateConsolidated
          ((alGet st.consolidated_message_buffers
              (getConsolidatedMessageKey ctx)).getD [] ++ continuationNotice)
          consolidatedMaxBytes) = c0
      rcases hsl : splitLoop oracle (getConsolidatedMessageKey ctx) fuel
          (ConsState.mk
            (alPop st.consolidated_message_ids
              (getConsolidatedMessageKey ctx))
            (alSet st.consolidated_message_buffers
              (getConsolidatedMessageKey ctx) (pyStrip text))
            st.diff_snapshots)
          (pyStrip text) none (prev ++ [c0]) with ⟨st2, u2, mid2, tr2, comp⟩
      dsimp only
      have hnd2 : keysNodup st2.consolidated_message_ids := by
        have hb := splitLoop_ids_nodup oracle (getConsolidatedMessageKey ctx)
          fuel (ConsState.mk
            (alPop st.consolidated_message_ids
              (getConsolidatedMessageKey ctx))
            (alSet st.consolidated_message_buffers
              (getConsolidatedMessageKey ctx) (pyStrip text))
            st.diff_snapshots) (pyStrip text) none (prev ++ [c0])
          (alPop_keysNodup _ _ hnd)
        rw [hsl] at hb
        exact hb
      have hm2 : mid2 = none := by
        have hc := splitLoop_mid_cases oracle (getConsolidatedMessageKey ctx)
          fuel (ConsState.mk
            (alPop st.consolidated_message_ids
              (getConsolidatedMessageKey ctx))
            (alSet st.consolidated_message_buffers
              (getConsolidatedMessageKey ctx) (pyStrip text))
            st.diff_snapshots) (pyStrip text) none (prev ++ [c0])
        rw [hsl] at hc
        rcases hc with h | h <;> exact h
      subst hm2
      dsimp only
      exact emitSendNew_ids_nodup _ _ _ _ _ _ hnd2
    · simp only [if_neg hthr]
      generalize (if (alGet st.consolidated_message_buffers
            (getConsolidatedMessageKey ctx)).getD [] ≠ [] then
          (alGet st.consolidated_message_buffers
              (getConsolidatedMessageKey ctx)).getD [] ++
            consolidatedSeparator ++ pyStrip text
        else pyStrip text) = u0
      rcases hsl : splitLoop oracle (getConsolidatedMessageKey ctx) fuel st u0
          (some m0) prev with ⟨st2, u2, mid2, tr2, comp⟩
      dsimp only
      have hnd2 : keysNodup st2.consolidated_message_ids := by
        have hb := splitLoop_ids_nodup oracle (getConsolidatedMessageKey ctx)
          fuel st u0 (some m0) prev hnd
        rw [hsl] at hb
        exact hb
      have hc := splitLoop_mid_cases oracle (getConsolidatedMessageKey ctx)
        fuel st u0 (some m0) prev
      rw [hsl] at hc
      rcases hc with hm2 | hm2 <;> subst hm2 <;> dsimp only
      · exact emitSendNew_ids_nodup _ _ _ _ _ _ hnd2
      · rcases ho : oracle (tr2 ++ [PCall.edit m0
            (truncateConsolidated u2 consolidatedMaxBytes)])
            with ⟨i, b⟩ | _
        · cases b with
          | false =>
            dsimp only
            exact emitSendNew_ids_nodup _ _ _ _ _ _
              (alPop_keysNodup _ _ hnd2)
          | true =>
            dsimp only
            exact hnd2
        · dsimp only
          exact emitSendNew_ids_nodup _ _ _ _ _ _
            (alPop_keysNodup _ _ hnd2)

theorem emit_calls_bounded (env : Env) (oracle : Oracle) (fuel : Nat)
    (st : ConsState) (ctx : MsgContext) (mt text : PyStr)
    (prev : List PCall)
    (h1 : canonicalizeMessageType mt ≠ "notify".data)
    (h2 : canonicalizeMessageType mt ≠ "result".data)
    (hprev : ∀ c ∈ prev, callWithinLimit c) :
    ∀ c ∈ (emit_agent_message env oracle fuel st ctx mt text prev).calls,
      callWithinLimit c := by
  unfold emit_agent_message
  by_cases hs : pyStrip text = []
  · rw [if_pos hs]
    exact hprev
  · rw [if_neg hs]
    dsimp only
    rw [if_neg h1, if_neg h2]
    split <;> split <;>
      first
        | exact hprev
        | exact emitLog_calls_bounded oracle fuel st ctx text prev hprev

theorem emit_ids_nodup (env : Env) (oracle : Oracle) (fuel : Nat)
    (st : ConsState) (ctx : MsgContext) (mt text : PyStr)
    (prev : List PCall)
    (h1 : canonicalizeMessageType mt ≠ "notify".data)
    (h2 : canonicalizeMessageType mt ≠ "result".data)
    (hnd : keysNodup st.consolidated_message_ids) :
    keysNodup (emit_agent_message env oracle fuel st ctx mt text
      prev).state.consolidated_message_ids := by
  unfold emit_agent_message
  by_cases hs : pyStrip text = []
  · rw [if_pos hs]
    exact hnd
  · rw [if_neg hs]
    dsimp only
    rw [if_neg h1, if_neg h2]
    split <;> split <;>
      first
        | exact hnd
        | exact emitLog_ids_nodup oracle fuel st ctx text prev hnd

theorem processFragments_inv (env : Env) (oracle : Oracle) (fuel : Nat)
    (ctx : MsgContext) :
    ∀ (frags : List (PyStr × PyStr)) (st : ConsState)
      (trace : List PCall),
      (∀ f ∈ frags, canonicalizeMessageType f.1 ≠ "notify".data ∧
        canonicalizeMessageType f.1 ≠ "result".data) →
      (∀ c ∈ trace, callWithinLimit c) →
      keysNodup st.consolidated_message_ids →
      (∀ c ∈ (processFragments env oracle fuel ctx frags st trace).calls,
        callWithinLimit c) ∧
      keysNodup (processFragments env oracle fuel ctx frags st
        trace).state.consolidated_message_ids := by
  intro frags
  induction frags with
  | nil => intro st trace hk htr hnd; exact ⟨htr, hnd⟩
  | cons f rest ih =>
    intro st trace hk htr hnd
    obtain ⟨mt, text⟩ := f
    obtain ⟨hne1, hne2⟩ := hk (mt, text) (List.mem_cons_self _ _)
    have hkr : ∀ f ∈ rest, canonicalizeMessageType f.1 ≠ "notify".data ∧
        canonicalizeMessageType f.1 ≠ "result".data :=
      fun f hf => hk f (List.mem_cons_of_mem _ hf)
    have hb := emit_calls_bounded env oracle fuel st ctx mt text trace
      hne1 hne2 htr
    have hn := emit_ids_nodup env oracle fuel st ctx mt text trace
      hne1 hne2 hnd
    have hrest := ih (emit_agent_message env oracle fuel st ctx mt text
      trace).state (emit_agent_message env oracle fuel st ctx mt text
      trace).calls hkr hb hn
    rw [processFragments]
    exact hrest

theorem reverse_dropWhile_isPrefix (p : Char → Bool) (s : PyStr) :
    (s.reverse.dropWhile p).reverse <+: s := by
  have h2 : (s.reverse.dropWhile p).reverse.reverse <:+ s.reverse := by
    rw [List.reverse_reverse]
    exact List.dropWhile_suffix p
  exact List.reverse_suffix.mp h2

theorem pyRstrip_isPrefix (s : PyStr) : pyRstrip s <+: s :=
  reverse_dropWhile_isPrefix _ s

theorem pyRstripChar_isPrefix (ch : Char) (s : PyStr) :
    pyRstripChar ch s <+: s :=
  reverse_dropWhile_isPrefix _ s

/-- The content part of a split-loop chunk — the truncated text with
any trailing ellipsis stripped — is a character prefix of the buffer:
`sent_chars` counts exactly the consumed prefix. -/
theorem firstPartContent_isPrefix (u : PyStr) (n : Nat) (h3 : 3 ≤ n) :
    pyRstripChar '…' (truncateConsolidated u n) <+: u := by
  by_cases h : byteLen u ≤ n
  · rw [truncateConsolidated_of_le u n h]
    exact pyRstripChar_isPrefix _ _
  · rw [truncateConsolidated_of_gt u n (by omega) h3,
      pyRstripChar_append_self]
    exact ((pyRstripChar_isPrefix '…' _).trans
      (pyRstrip_isPrefix _)).trans (utf8TakeBytes_isPrefix _ _)

theorem prefix_append_drop {p u : PyStr} (h : p <+: u) :
    p ++ u.drop p.length = u := by
  obtain ⟨t, ht⟩ := h
  rw [← ht, List.drop_left]

/-- Decomposition of the split loop under an all-success oracle and no
tracked message id: the produced calls are sends of successive content
prefixes each carrying the continuation marker, the consumed prefixes
concatenated with the remaining buffer reconstruct the input exactly,
completion bounds the remainder by `MAX_BYTES`, and an oversized input
that completes produced at least one split send. -/
theorem splitLoop_success_spec (oracle : Oracle) (key : PyStr)
    (hsucc : ∀ l, oracle l ≠ CallResult.exn) :
    ∀ (fuel : Nat) (st : ConsState) (u : PyStr) (trace : List PCall),
      ∃ ps : List PyStr,
        (splitLoop oracle key fuel st u none trace).2.2.1 = none ∧
        (splitLoop oracle key fuel st u none trace).2.2.2.1 =
          trace ++ ps.map (fun p => PCall.send (p ++ continuationNotice)) ∧
        ps.flatten ++ (splitLoop oracle key fuel st u none trace).2.1 = u ∧
        ((splitLoop oracle key fuel st u none trace).2.2.2.2 = true →
          byteLen (splitLoop oracle key fuel st u none trace).2.1 ≤
            consolidatedMaxBytes) ∧
        ((splitLoop oracle key fuel st u none trace).2.2.2.2 = true →
          consolidatedMaxBytes < byteLen u → ps ≠ []) := by
  intro fuel
  induction fuel with
  | zero =>
    intro st u trace
    refine ⟨[], by simp [splitLoop], by simp [splitLoop],
      by simp [splitLoop], ?_, ?_⟩
    · intro hc
      exact of_decide_eq_true hc
    · intro hc hgt
      exact absurd (of_decide_eq_true hc) (not_le.mpr hgt)
  | succ n ih =>
    intro st u trace
    by_cases hle : byteLen u ≤ consolidatedMaxBytes
    · have heq : splitLoop oracle key (n + 1) st u none trace =
          (st, u, none, trace, true) := by
        rw [splitLoop, if_pos hle]
      refine ⟨[], by rw [heq], by rw [heq]; simp, by rw [heq]; simp,
        fun _ => by rw [heq]; exact hle,
        fun _ hgt => absurd hgt (not_lt.mpr hle)⟩
    · cases hres : oracle (trace ++ [PCall.send
          (pyRstripChar '…' (truncateConsolidated u
              (consolidatedSplitThreshold - byteLen continuationNotice)) ++
            continuationNotice)]) with
      | exn => exact absurd hres (hsucc _)
      | success i r =>
        have heq : splitLoop oracle key (n + 1) st u none trace =
            splitLoop oracle key n
              { st with
                  consolidated_message_ids :=
                    alPop st.consolidated_message_ids key }
              (u.drop ((pyRstripChar '…' (truncateConsolidated u
                    (consolidatedSplitThreshold -
                      byteLen continuationNotice)) ++
                  continuationNotice).length - continuationNotice.length))
              none
              (trace ++ [PCall.send
                (pyRstripChar '…' (truncateConsolidated u
                    (consolidatedSplitThreshold -
                      byteLen continuationNotice)) ++
                  continuationNotice)]) := by
          rw [splitLoop, if_neg hle]
          dsimp only
          rw [hres]
        obtain ⟨ps', h1, h2, h3, h4, h5⟩ := ih
          { st with
              consolidated_message_ids :=
                alPop st.consolidated_message_ids key }
          (u.drop ((pyRstripChar '…' (truncateConsolidated u
                (consolidatedSplitThreshold -
                  byteLen continuationNotice)) ++
              continuationNotice).length - continuationNotice.length))
          (trace ++ [PCall.send
            (pyRstripChar '…' (truncateConsolidated u
                (consolidatedSplitThreshold -
                  byteLen continuationNotice)) ++
              continuationNotice)])
        have hdrop : ((pyRstripChar '…' (truncateConsolidated u
              (consolidatedSplitThreshold - byteLen continuationNotice)) ++
            continuationNotice).length - continuationNotice.length) =
              (pyRstripChar '…' (truncateConsolidated u
                (consolidatedSplitThreshold -
                  byteLen continuationNotice))).length := by
          rw [List.length_append]
          omega
        refine ⟨pyRstripChar '…' (truncateConsolidated u
            (consolidatedSplitThreshold - byteLen continuationNotice)) :: ps',
          ?_, ?_, ?_, ?_, ?_⟩
        · rw [heq]
          exact h1
        · rw [heq, h2]
          simp
        · rw [heq, List.flatten_cons, List.append_assoc, h3, hdrop]
          exact prefix_append_drop (firstPartContent_isPrefix u _ (by decide))
        · rw [heq]
          exact h4
        · intro _ _
          exact List.cons_ne_nil _ _

/-- C1: for any sequence of log fragments processed for one key, every
text ever handed to a platform `send_message` or `edit_message` call
has UTF-8 byte length at most 4000 (`MAX_BYTES`), and the per-key
message-id dictionary keeps at most one remote message id tracked per
key (distinct keys stay distinct). -/
theorem claim_C1_byte_budget_invariant :
    ∀ (env : Env) (oracle : Oracle) (fuel : Nat) (ctx : MsgContext)
      (frags : List (PyStr × PyStr)) (st : ConsState),
      (∀ f ∈ frags, canonicalizeMessageType f.1 ≠ "notify".data ∧
        canonicalizeMessageType f.1 ≠ "result".data) →
      keysNodup st.consolidated_message_ids →
      (∀ c ∈ (processFragments env oracle fuel ctx frags st []).calls,
        callWithinLimit c) ∧
      keysNodup (processFragments env oracle fuel ctx frags st
        []).state.consolidated_message_ids :=
  fun env oracle fuel ctx frags st hk hnd =>
    processFragments_inv env oracle fuel ctx frags st [] hk (by simp) hnd

/-- C1 witness: two log fragments at a concrete input, one of them
oversized enough to exercise the proactive split, with the byte bound
checked on one of the produced calls and the id dictionary still
duplicate-free. -/
theorem claim_C1_witness :
    callWithinLimit (PCall.send ("hello".data)) ∧
    keysNodup (processFragments envW okOracle 5 ctxW
      [("assistant".data, "hello".data), ("toolcall".data, "world".data)]
      stEmpty []).state.consolidated_message_ids :=
  ⟨(claim_C1_byte_budget_invariant envW okOracle 5 ctxW
      [("assistant".data, "hello".data), ("toolcall".data, "world".data)]
      stEmpty (by decide) (by decide)).1 (PCall.send ("hello".data))
      (by decide),
   (claim_C1_byte_budget_invariant envW okOracle 5 ctxW
      [("assistant".data, "hello".data), ("toolcall".data, "world".data)]
      stEmpty (by decide) (by decide)).2⟩

/-- C2: a single fragment whose stripped text exceeds 4000 UTF-8 bytes,
given to the consolidation path for a key with empty buffer and no
tracked message id, under a platform where every send/edit succeeds and
with enough fuel for the split loop to complete, produces at least two
send calls — the split parts each carrying the continuation marker,
then the final remainder — every call fits in 4000 bytes, and
concatenating the content (non-marker) portions of all sent texts
reproduces the stripped fragment exactly: no content byte is dropped. -/
theorem claim_C2_oversized_fragment_split :
    ∀ (oracle : Oracle) (fuel : Nat) (st : ConsState) (ctx : MsgContext)
      (text : PyStr),
      (∀ l, oracle l ≠ CallResult.exn) →
      (alGet st.consolidated_message_buffers
          (getConsolidatedMessageKey ctx)).getD [] = [] →
      alGet st.consolidated_message_ids (getConsolidatedMessageKey ctx) =
        none →
      consolidatedMaxBytes < byteLen (pyStrip text) →
      (emitLog oracle fuel st ctx text []).completed = true →
      ∃ (ps : List PyStr) (rest : PyStr),
        (emitLog oracle fuel st ctx text []).calls =
          ps.map (fun p => PCall.send (p ++ continuationNotice)) ++
            [PCall.send rest] ∧
        ps ≠ [] ∧
        ps.flatten ++ rest = pyStrip text ∧
        2 ≤ (emitLog oracle fuel st ctx text []).calls.length ∧
        ∀ c ∈ (emitLog oracle fuel st ctx text []).calls,
          callWithinLimit c := by
  intro oracle fuel st ctx text hsucc hbuf hid hover hcomp
  have hne : ¬((alGet st.consolidated_message_buffers
      (getConsolidatedMessageKey ctx)).getD [] ≠ []) := fun h => h hbuf
  rcases hsl : splitLoop oracle (getConsolidatedMessageKey ctx) fuel st
      (pyStrip text) none [] with ⟨st2, u2, mid2, tr2, comp⟩
  obtain ⟨ps, h1, h2, h3, h4, h5⟩ := splitLoop_success_spec oracle
    (getConsolidatedMessageKey ctx) hsucc fuel st (pyStrip text) []
  rw [hsl] at h1 h2 h3 h4 h5
  dsimp only at h1 h2 h3 h4 h5
  subst h1
  rw [List.nil_append] at h2
  have hemit : emitLog oracle fuel st ctx text [] =
      emitSendNew oracle (getConsolidatedMessageKey ctx)
        { st2 with
            consolidated_message_buffers :=
              alSet st2.consolidated_message_buffers
                (getConsolidatedMessageKey ctx)
                (truncateConsolidated u2 consolidatedMaxBytes) }
        (truncateConsolidated u2 consolidatedMaxBytes) tr2 comp := by
    unfold emitLog
    dsimp only
    rw [hid]
    dsimp only
    rw [if_neg hne, hsl]
  have hcalls : (emitSendNew oracle (getConsolidatedMessageKey ctx)
      { st2 with
          consolidated_message_buffers :=
            alSet st2.consolidated_message_buffers
              (getConsolidatedMessageKey ctx)
              (truncateConsolidated u2 consolidatedMaxBytes) }
      (truncateConsolidated u2 consolidatedMaxBytes) tr2 comp).calls =
        tr2 ++ [PCall.send (truncateConsolidated u2 consolidatedMaxBytes)]
      := by
    unfold emitSendNew
    dsimp only
    cases oracle (tr2 ++
        [PCall.send (truncateConsolidated u2 consolidatedMaxBytes)]) <;> rfl
  have hcompl : (emitSendNew oracle (getConsolidatedMessageKey ctx)
      { st2 with
          consolidated_message_buffers :=
            alSet st2.consolidated_message_buffers
              (getConsolidatedMessageKey ctx)
              (truncateConsolidated u2 consolidatedMaxBytes) }
      (truncateConsolidated u2 consolidatedMaxBytes) tr2 comp).completed =
        comp := by
    unfold emitSendNew
    dsimp only
    cases oracle (tr2 ++
        [PCall.send (truncateConsolidated u2 consolidatedMaxBytes)]) <;> rfl
  rw [hemit, hcompl] at hcomp
  have hu2 : byteLen u2 ≤ consolidatedMaxBytes := h4 hcomp
  have htr : truncateConsolidated u2 consolidatedMaxBytes = u2 :=
    truncateConsolidated_of_le u2 consolidatedMaxBytes hu2
  have hbound := splitLoop_calls_bounded oracle
    (getConsolidatedMessageKey ctx) fuel st (pyStrip text) none []
    (by simp)
  rw [hsl] at hbound
  dsimp only at hbound
  refine ⟨ps, u2, ?_, h5 hcomp hover, h3, ?_, ?_⟩
  · rw [hemit, hcalls, htr, h2]
  · rw [hemit, hcalls, htr, h2, List.length_append, List.length_map,
      List.length_singleton]
    have hps : ps ≠ [] := h5 hcomp hover
    have := List.length_pos.mpr hps
    omega
  · intro c hc
    rw [hemit, hcalls, htr, h2] at hc
    rcases List.mem_append.mp hc with h | h
    · exact hbound c (by rw [h2]; exact h)
    · have h' := List.mem_singleton.mp h
      subst h'
      exact hu2

theorem byteLen_replicate (n : Nat) (c : Char) :
    byteLen (List.replicate n c) = n * (utf8B c).length := by
  rw [byteLen_eq_sum, List.map_replicate, List.sum_replicate, smul_eq_mul]

theorem dropWhile_replicate (p : Char → Bool) (c : Char)
    (hc : p c = false) (n : Nat) :
    (List.replicate n c).dropWhile p = List.replicate n c := by
  cases n with
  | zero => rfl
  | succ m => simp [List.replicate_succ, List.dropWhile_cons, hc]

theorem pyStrip_replicate (n : Nat) (c : Char) (hc : isPySpace c = false) :
    pyStrip (List.replicate n c) = List.replicate n c := by
  unfold pyStrip
  rw [dropWhile_replicate _ _ hc, List.reverse_replicate,
    dropWhile_replicate _ _ hc, List.reverse_replicate]

theorem utf8TakeBytes_replicate (c : Char) (m : Nat) :
    ∀ n, utf8TakeBytes n (List.replicate m c) =
      List.replicate (min m (n / (utf8B c).length)) c := by
  induction m with
  | zero => intro n; simp [utf8TakeBytes]
  | succ m ih =>
    intro n
    rw [List.replicate_succ, utf8TakeBytes]
    by_cases h : (utf8B c).length ≤ n
    · rw [if_pos h, ih]
      have hL := utf8B_length_pos c
      rw [Nat.div_eq_sub_div hL h, Nat.succ_min_succ, List.replicate_succ]
    · rw [if_neg h]
      rw [Nat.div_eq_of_lt (not_le.mp h)]
      simp

/-- One successful iteration of the split loop with no tracked id. -/
theorem splitLoop_step (oracle : Oracle) (key : PyStr) (n : Nat)
    (st : ConsState) (u : PyStr) (trace : List PCall) (i : PyStr)
    (r : Bool) (hgt : ¬byteLen u ≤ consolidatedMaxBytes)
    (hres : oracle (trace ++ [PCall.send (pyRstripChar '…'
        (truncateConsolidated u (consolidatedSplitThreshold -
          byteLen continuationNotice)) ++ continuationNotice)]) =
      CallResult.success i r) :
    splitLoop oracle key (n + 1) st u none trace =
      splitLoop oracle key n
        { st with
            consolidated_message_ids :=
              alPop st.consolidated_message_ids key }
        (u.drop ((pyRstripChar '…' (truncateConsolidated u
            (consolidatedSplitThreshold - byteLen continuationNotice)) ++
          continuationNotice).length - continuationNotice.length)) none
        (trace ++ [PCall.send (pyRstripChar '…' (truncateConsolidated u
            (consolidatedSplitThreshold - byteLen continuationNotice)) ++
          continuationNotice)]) := by
  rw [splitLoop, if_neg hgt]
  dsimp only
  rw [hres]

/-- The split loop is an immediate no-op once the buffer fits. -/
theorem splitLoop_done (oracle : Oracle) (key : PyStr) (fuel : Nat)
    (st : ConsState) (u : PyStr) (mid : Option PyStr)
    (trace : List PCall) (h : byteLen u ≤ consolidatedMaxBytes) :
    splitLoop oracle key fuel st u mid trace = (st, u, mid, trace, true) := by
  cases fuel with
  | zero => simp [splitLoop, h]
  | succ n => rw [splitLoop, if_pos h]

theorem emitSendNew_completed (oracle : Oracle) (key : PyStr)
    (st : ConsState) (tf : PyStr) (trace : List PCall) (compl : Bool) :
    (emitSendNew oracle key st tf trace compl).completed = compl := by
  unfold emitSendNew
  dsimp only
  cases oracle (trace ++ [PCall.send tf]) <;> rfl

/-- With empty buffer and no tracked id, the completion flag of the
consolidation path is exactly the split loop's completion flag. -/
theorem emitLog_completed_of (oracle : Oracle) (fuel : Nat)
    (st : ConsState) (ctx : MsgContext) (text : PyStr)
    (hbuf : (alGet st.consolidated_message_buffers
      (getConsolidatedMessageKey ctx)).getD [] = [])
    (hid : alGet st.consolidated_message_ids
      (getConsolidatedMessageKey ctx) = none) :
    (emitLog oracle fuel st ctx text []).completed =
      (splitLoop oracle (getConsolidatedMessageKey ctx) fuel st
        (pyStrip text) none []).2.2.2.2 := by
  have hne : ¬((alGet st.consolidated_message_buffers
      (getConsolidatedMessageKey ctx)).getD [] ≠ []) := fun h => h hbuf
  unfold emitLog
  dsimp only
  rw [hid]
  dsimp only
  rw [if_neg hne]
  rcases hsl : splitLoop oracle (getConsolidatedMessageKey ctx) fuel st
      (pyStrip text) none [] with ⟨st2, u2, mid2, tr2, comp⟩
  dsimp only
  cases mid2 with
  | none =>
    dsimp only
    exact emitSendNew_completed _ _ _ _ _ _
  | some m =>
    dsimp only
    cases horacle : oracle (tr2 ++ [PCall.edit m
        (truncateConsolidated u2 consolidatedMaxBytes)]) with
    | exn => exact emitSendNew_completed _ _ _ _ _ _
    | success i r =>
      cases r with
      | false => exact emitSendNew_completed _ _ _ _ _ _
      | true => rfl

/-- The concrete split run behind the C2 witness: a 1334-character
CJK buffer (4002 UTF-8 bytes) splits once — sending 1189 characters
plus the continuation marker — and the 145-character remainder fits,
so the loop completes within fuel 2. -/
theorem splitLoop_witness_completed :
    (splitLoop okOracle (getConsolidatedMessageKey ctxW) 2 stEmpty
      (List.replicate 1334 'あ') none []).2.2.2.2 = true := by
  have hL : (utf8B 'あ').length = 3 := by decide
  have hb : byteLen (List.replicate 1334 'あ') = 4002 := by
    rw [byteLen_replicate, hL]
  have hgt : ¬byteLen (List.replicate 1334 'あ') ≤ consolidatedMaxBytes := by
    rw [hb]; decide
  have h29 : consolidatedSplitThreshold - byteLen continuationNotice =
      3571 := by decide
  have htr : truncateConsolidated (List.replicate 1334 'あ') 3571 =
      pyRstrip (utf8TakeBytes (3571 - 3) (List.replicate 1334 'あ')) ++
        ['…'] :=
    truncateConsolidated_of_gt _ _ (by rw [hb]; decide) (by decide)
  have htake : utf8TakeBytes (3571 - 3) (List.replicate 1334 'あ') =
      List.replicate 1189 'あ' := by
    rw [utf8TakeBytes_replicate, hL]
    have hmin : min 1334 ((3571 - 3) / 3) = 1189 := by decide
    rw [hmin]
  have hstrip : pyRstrip (List.replicate 1189 'あ') =
      List.replicate 1189 'あ' := by
    unfold pyRstrip
    rw [List.reverse_replicate, dropWhile_replicate _ _ (by decide),
      List.reverse_replicate]
  have hrc : pyRstripChar '…' (List.replicate 1189 'あ') =
      List.replicate 1189 'あ' := by
    unfold pyRstripChar
    rw [List.reverse_replicate, dropWhile_replicate _ _ (by decide),
      List.reverse_replicate]
  have hfit : byteLen (List.replicate (1334 - 1189) 'あ') ≤
      consolidatedMaxBytes := by
    rw [byteLen_replicate, hL]; decide
  rw [splitLoop_step okOracle (getConsolidatedMessageKey ctxW) 1 stEmpty
    (List.replicate 1334 'あ') [] ("m1".data) true hgt rfl]
  rw [h29, htr, pyRstripChar_append_self, htake, hstrip, hrc]
  have hlen : (List.replicate 1189 'あ' ++ continuationNotice).length -
      continuationNotice.length = 1189 := by
    rw [List.length_append, List.length_replicate]
    omega
  rw [hlen, List.drop_replicate]
  rw [splitLoop_done okOracle (getConsolidatedMessageKey ctxW) 1 _ _ _ _
    hfit]

/-- C2 witness: a 1334-character CJK fragment (4002 UTF-8 bytes) fed to
an empty key under an always-successful platform with fuel 2: the
conclusion of the split-correctness theorem holds at this input. -/
theorem claim_C2_witness :
    ∃ (ps : List PyStr) (rest : PyStr),
      (emitLog okOracle 2 stEmpty ctxW (List.replicate 1334 'あ')
          []).calls =
        ps.map (fun p => PCall.send (p ++ continuationNotice)) ++
          [PCall.send rest] ∧
      ps ≠ [] ∧
      ps.flatten ++ rest = pyStrip (List.replicate 1334 'あ') ∧
      2 ≤ (emitLog okOracle 2 stEmpty ctxW (List.replicate 1334 'あ')
          []).calls.length ∧
      ∀ c ∈ (emitLog okOracle 2 stEmpty ctxW (List.replicate 1334 'あ')
          []).calls, callWithinLimit c :=
  claim_C2_oversized_fragment_split okOracle 2 stEmpty ctxW
    (List.replicate 1334 'あ')
    (fun _ h => by simp [okOracle] at h)
    (by decide) (by decide)
    (by rw [pyStrip_replicate _ _ (by decide), byteLen_replicate]
        decide)
    (by rw [emitLog_completed_of okOracle 2 stEmpty ctxW
          (List.replicate 1334 'あ') (by decide) (by decide),
          pyStrip_replicate _ _ (by decide)]
        exact splitLoop_witness_completed)

end SlackCoder
